import Mathlib

/-!
# Konsole `ViewManager` — a shallow embedding

The development follows `src/konsole/ViewManager.cpp`.  Objects created with
`new` are handles (natural numbers); the allocator hands out the handle at its
position and the ones that follow.  The position is part of the state and is not
tied to the manager: `new` never returns the address of a live object, but it may
return the address of a deleted one, so of the allocator the theorems below assume
at most that the views held by a container lie below the position.  A null pointer
is `none`.  An operation that dereferences a null pointer has no result (`none`).

`ViewContainer`, `ViewSplitter` and `TESession` are used by `ViewManager.cpp`
but their implementation files are not part of the sources at hand, so the few
operations on them that `ViewManager.cpp` calls are modelled from the
specification; each such definition says so.
-/

namespace Konsole

/-- A `TEWidget*` that is not null. -/
abbrev View := Nat
/-- A `TESession*` that is not null. -/
abbrev Session := Nat
/-- A `SessionController*` (also used as `ViewProperties*`) that is not null. -/
abbrev Controller := Nat

/-! ## The view-session map (`_sessionMap`, a `QHash<TEWidget*,TESession*>`) -/

/-- Entries of `_sessionMap`; the value of an entry may be the null session. -/
abbrev SessionMap := List (View × Option Session)

namespace SessionMap

/-- The entry stored for `v`, if there is one (a read that does not modify the map). -/
def value : SessionMap → View → Option (Option Session)
  | [], _ => none
  | (k, s) :: m, v => if k = v then some s else value m v

/-- Qt `remove(key)`: erases the entry of `v`; nothing happens when there is none. -/
def remove (m : SessionMap) (v : View) : SessionMap :=
  m.filter (fun p => p.1 ≠ v)

/-- Qt `insert(key, value)`: the entry of `v` becomes `s`. -/
def insert (m : SessionMap) (v : View) (s : Option Session) : SessionMap :=
  (v, s) :: remove m v

/-- Qt `operator[]` on a non-const hash, as used in `_sessionMap[view]`: returns the
stored value; when the key is absent it first inserts a default-constructed value,
here the null pointer. -/
def index (m : SessionMap) (v : View) : Option Session × SessionMap :=
  match value m v with
  | some s => (s, m)
  | none => (none, insert m v none)

end SessionMap

/-! ## Containers -/

/-- Modelled from the spec: `ViewContainer` (its implementation file is not among the
sources).  "An ordered holder of Views with one active view": the views in display
order, each with the `ViewProperties` registered with it, and the active view,
"nullable only if empty". -/
structure ViewContainer where
  items : List (View × Controller)
  active : Option View
deriving DecidableEq, Repr

namespace ViewContainer

/-- Modelled from the spec: the container `new TabbedViewContainer` returns, which
holds no view yet. -/
def empty : ViewContainer := ⟨[], none⟩

/-- Modelled from the spec: `views()`, the ordered sequence of views. -/
def views (c : ViewContainer) : List View := c.items.map Prod.fst

/-- Modelled from the spec: `activeView()`. -/
def activeView (c : ViewContainer) : Option View := c.active

/-- Modelled from the spec: `viewProperties(view)`, the properties registered with
the view by `addView`. -/
def viewProperties (c : ViewContainer) (v : View) : Option Controller :=
  (c.items.find? (fun p => p.1 = v)).map Prod.snd

/-- Modelled from the spec: `addView(view, properties)`.  Insertion order is display
order; a container that had no active view gets the new one as active view, since
the active view is "nullable only if empty". -/
def addView (c : ViewContainer) (v : View) (p : Controller) : ViewContainer :=
  { items := c.items ++ [(v, p)]
    active := match c.active with
      | none => some v
      | some a => some a }

/-- Modelled from the spec: `removeView(view)`.  When the active view is removed the
first remaining view becomes active (the spec only fixes that the active view is
null when the container is empty). -/
def removeView (c : ViewContainer) (v : View) : ViewContainer :=
  { items := c.items.filter (fun p => p.1 ≠ v)
    active := if c.active = some v
      then ((c.items.filter (fun p => p.1 ≠ v)).head?).map Prod.fst
      else c.active }

/-- Modelled from the spec: `setActiveView(view)`. -/
def setActiveView (c : ViewContainer) (v : View) : ViewContainer :=
  { c with active := some v }

end ViewContainer

/-- Applies `f` to the element at position `i`. -/
def modifyAt {α : Type} (f : α → α) : Nat → List α → List α
  | _, [] => []
  | 0, c :: cs => f c :: cs
  | i + 1, c :: cs => c :: modifyAt f i cs

/-! ## The layout tree -/

/-- Modelled from the spec: `ViewSplitter` (its implementation file is not among the
sources), as the "flat list-of-containers" with the active container kept "as a
separate pointer/index into this structure". -/
structure ViewSplitter where
  containers : List ViewContainer
  activeIndex : Nat
deriving DecidableEq, Repr

namespace ViewSplitter

/-- Modelled from the spec: `activeContainer()`; null when there is no such container. -/
def activeContainer (sp : ViewSplitter) : Option ViewContainer :=
  sp.containers[sp.activeIndex]?

/-- Modelled from the spec: `addContainer(container, orientation)`.  The first
container becomes the active one ("exactly one Container is active at all times once
any Container exists"); otherwise the active container stays. -/
def addContainer (sp : ViewSplitter) (c : ViewContainer) : ViewSplitter :=
  { containers := sp.containers ++ [c]
    activeIndex := if sp.containers = [] then 0 else sp.activeIndex }

/-- A member function called on the active container object. -/
def modifyActive (sp : ViewSplitter) (f : ViewContainer → ViewContainer) : ViewSplitter :=
  { sp with containers := modifyAt f sp.activeIndex sp.containers }

/-- Modelled from the spec: what is left of the tree after `delete container` on the
active container.  The container leaves the tree; the spec does not say which
container is active next, the last one is taken. -/
def deleteActive (sp : ViewSplitter) : ViewSplitter :=
  { containers := sp.containers.eraseIdx sp.activeIndex
    activeIndex := (sp.containers.eraseIdx sp.activeIndex).length - 1 }

/-- All views held by the containers, container by container. -/
def allViews (sp : ViewSplitter) : List View :=
  (sp.containers.map ViewContainer.views).flatten

/-- Qt `findChildren<TEWidget*>()` on the splitter: every view object below it, once. -/
def findChildren (sp : ViewSplitter) : List View :=
  sp.allViews.dedup

/-- Modelled from the spec: a destroyed view leaves the container that held it
("the Container removes it as part of that"). -/
def dropView (sp : ViewSplitter) (v : View) : ViewSplitter :=
  { sp with containers := sp.containers.map (fun c => c.removeView v) }

end ViewSplitter

/-! ## What lies outside the manager -/

/-- The surroundings a manager works in: the allocator and the sessions. -/
structure Env where
  /-- The position of the allocator: the handle the next `new` returns.  It may be
  the address of a deleted object, also one that is still a key of `_sessionMap`. -/
  next : Nat
  /-- Modelled from the spec: the "set of bound View identities" every session
  tracks (`TESession::views()`), as pairs of a session and a view bound to it. -/
  sessionViews : List (Session × View)
  /-- The sessions `closeSession()` was called on, oldest first. -/
  closed : List Session
deriving DecidableEq, Repr

namespace Env

/-- A `new` expression: the handle at the position of the allocator, which moves on. -/
def alloc (e : Env) : Nat × Env := (e.next, { e with next := e.next + 1 })

/-- The allocator at position `n`: memory that was freed is handed out again. -/
def reposition (e : Env) (n : Nat) : Env := { e with next := n }

/-- Modelled from the spec: `session->addView(display)`. -/
def addView (e : Env) (s : Session) (v : View) : Env :=
  { e with sessionViews := e.sessionViews ++ [(s, v)] }

/-- Modelled from the spec: `session->views()`. -/
def views (e : Env) (s : Session) : List View :=
  (e.sessionViews.filter (fun p => p.1 = s)).map Prod.snd

/-- Modelled from the spec: a destroyed view is no longer bound to its session. -/
def viewDestroyed (e : Env) (v : View) : Env :=
  { e with sessionViews := e.sessionViews.filter (fun p => p.2 ≠ v) }

/-- Modelled from the spec: `session->closeSession()`. -/
def closeSession (e : Env) (s : Session) : Env :=
  { e with closed := e.closed ++ [s] }

end Env

/-! ## The manager -/

/-- The state of a `ViewManager`, with the parts of the main window and of the Qt
connection table its member functions change. -/
structure ViewManager where
  /-- Member `_viewSplitter`. -/
  viewSplitter : ViewSplitter
  /-- Member `_sessionMap`. -/
  sessionMap : SessionMap
  /-- Member `_pluggedController`, `none` for the null pointer. -/
  pluggedController : Option Controller
  /-- The clients of `_mainWindow->guiFactory()`, in the order they were added. -/
  guiClients : List Controller
  /-- The controllers whose `titleChanged` signal is connected to
  `activeViewTitleChanged`, one element per connection, newest first. -/
  titleConnections : List Controller
  /-- Whether `_splitViewAction` is checked. -/
  splitViewChecked : Bool
  /-- The arguments of the `viewDetached` signals emitted so far, oldest first. -/
  viewDetached : List (Option Session)
  /-- The caption of the main window, once `setPlainCaption` was called. -/
  caption : Option String
deriving DecidableEq, Repr

/-- The state the constructor leaves: a splitter without containers, an empty map, no
plugged controller, the split action unchecked. -/
def ViewManager.new : ViewManager :=
  { viewSplitter := ⟨[], 0⟩
    sessionMap := []
    pluggedController := none
    guiClients := []
    titleConnections := []
    splitViewChecked := false
    viewDetached := []
    caption := none }

/-- All views held by the containers of the manager. -/
def ViewManager.liveViews (m : ViewManager) : List View := m.viewSplitter.allViews

/-- A manager together with its surroundings. -/
abbrev World := Env × ViewManager

/-- Modelled from the spec: the effect of `delete view` outside the manager; the view
leaves the container that held it and is no longer bound to its session.  The
destructors do not touch `_sessionMap`, a private member of the manager. -/
def destroyView (v : View) (e : Env) (sp : ViewSplitter) : Env × ViewSplitter :=
  (e.viewDestroyed v, sp.dropView v)

/-- Modelled from the spec: the effect of `delete container` on the active container
outside the manager; the container leaves the tree and "transitively, all its Views"
are destroyed.  Deleting a null pointer does nothing. -/
def destroyActiveContainer (e : Env) (sp : ViewSplitter) : Env × ViewSplitter :=
  match sp.activeContainer with
  | none => (e, sp)
  | some c => (c.views.foldl (fun e v => e.viewDestroyed v) e, sp.deleteActive)

/-- Source function `ViewManager::createTerminalDisplay`: `new TEWidget(0)`. -/
def createTerminalDisplay (e : Env) : View × Env := e.alloc

/-- Source function `ViewManager::loadViewSettings`: reads `session->schema()`, so
there is no result for the null session; otherwise the result is the session whose
colour table the view gets. -/
def loadViewSettings (_view : View) (session : Option Session) : Option Session := session

/-- Source function `ViewManager::createController`:
`new SessionController(session,view,this)`. -/
def createController (_session : Session) (_view : View) (e : Env) : Controller × Env :=
  e.alloc

/-- Source function `ViewManager::createContainer`:
`new TabbedViewContainer(_viewSplitter)`. -/
def createContainer : ViewContainer := ViewContainer.empty

/-- Source function `ViewManager::focusActiveView`: the view that is given the focus,
if any; both null checks are in the source. -/
def focusActiveView (m : ViewManager) : Option View :=
  match m.viewSplitter.activeContainer with
  | none => none
  | some c => c.activeView

/-- Source function `ViewManager::activeViewTitleChanged`: sets the caption of the
main window. -/
def activeViewTitleChanged (title : String) (m : ViewManager) : ViewManager :=
  { m with caption := some title }

/-- The signal `titleChanged` of a controller: when the signal is connected to the
manager, the slot `activeViewTitleChanged` runs. -/
def titleChanged (controller : Controller) (title : String) (m : ViewManager) :
    ViewManager :=
  if controller ∈ m.titleConnections then activeViewTitleChanged title m else m

/-- Source function `ViewManager::viewFocused`.  The call `removeClient` takes
`_pluggedController`, the call `disconnect` on the next line takes `controller`. -/
def viewFocused (controller : Controller) (m : ViewManager) : ViewManager :=
  if m.pluggedController ≠ some controller then
    match m.pluggedController with
    | some plugged =>
      -- removeClient(_pluggedController); disconnect( controller , titleChanged , ... )
      { m with
        guiClients := (m.guiClients.filter (fun c => c ≠ plugged)) ++ [controller]
        titleConnections := controller :: m.titleConnections.filter (fun c => c ≠ controller)
        pluggedController := some controller }
    | none =>
      { m with
        guiClients := m.guiClients ++ [controller]
        titleConnections := controller :: m.titleConnections
        pluggedController := some controller }
  else m

/-- The loop of the `splitView(true)` branch (lines 211-222): one new view per view
of the active container, added to the new container. -/
def splitViewLoop : List View → Env × SessionMap × ViewContainer →
    Option (Env × SessionMap × ViewContainer)
  | [], st => some st
  | v :: vs, (e, map, container) =>
    let (session, map1) := SessionMap.index map v
    let (display, e1) := createTerminalDisplay e
    match loadViewSettings display session with
    | none => none
    | some s =>
      let (properties, e2) := createController s display e1
      let map2 := SessionMap.insert map1 display session
      let container1 := container.addView display properties
      let e3 := e2.addView s display
      splitViewLoop vs (e3, map2, container1)

/-- Lines 203-236 of `ViewManager::splitView`: the two branches, without the final
focus statement. -/
def splitViewBranch (splitView : Bool) (w : World) : Option World :=
  let (e, m) := w
  if splitView then
    match m.viewSplitter.activeContainer with
    | none => none
    | some ac =>
      match splitViewLoop ac.views (e, m.sessionMap, createContainer) with
      | none => none
      | some (e1, map1, container) =>
        some (e1, { m with
          sessionMap := map1
          viewSplitter := m.viewSplitter.addContainer container })
  else
    if m.viewSplitter.containers.length > 1 then
      let (e1, sp1) := destroyActiveContainer e m.viewSplitter
      some (e1, { m with viewSplitter := sp1 })
    else some (e, m)

/-- Line 239 of `ViewManager::splitView`:
`_viewSplitter->activeContainer()->activeView()->setFocus(...)`; neither pointer is
checked. -/
def splitViewFocus (w : World) : Option World :=
  match w.2.viewSplitter.activeContainer with
  | none => none
  | some c =>
    match c.activeView with
    | none => none
    | some _ => some w

/-- Source function `ViewManager::splitView`. -/
def splitView (b : Bool) (w : World) : Option World :=
  (splitViewBranch b w).bind splitViewFocus

/-- The user flips the "Split View" toggle action: the action takes the new state and
its `toggled(bool)` signal, connected in `setupActions`, calls `splitView`. -/
def splitViewToggled (b : Bool) (w : World) : Option World :=
  splitView b (w.1, { w.2 with splitViewChecked := b })

/-- Statement `_splitViewAction->setChecked(false)` (line 113): when the action was
checked it becomes unchecked and emits `toggled(false)`, which calls
`splitView(false)`; an unchecked action emits nothing. -/
def uncheckSplitView (w : World) : Option World :=
  if w.2.splitViewChecked then splitView false (w.1, { w.2 with splitViewChecked := false })
  else some w

/-- Source function `ViewManager::detachActiveView`.  A null container is dereferenced
on line 89; the emitted `viewDetached` signal is recorded in the state. -/
def detachActiveView (w : World) : Option World :=
  let (e, m) := w
  match m.viewSplitter.activeContainer with
  | none => none
  | some container =>
    match container.activeView with
    | none => some (e, m)
    | some activeView =>
      let (session, map1) := SessionMap.index m.sessionMap activeView
      let map2 := SessionMap.remove map1 activeView
      let sp1 := m.viewSplitter.modifyActive (fun c => c.removeView activeView)
      let (e1, sp2) := destroyView activeView e sp1
      let m1 : ViewManager := { m with
        sessionMap := map2
        viewSplitter := sp2
        viewDetached := m.viewDetached ++ [session] }
      if sp2.containers.length > 1 ∧
          (sp2.activeContainer.map (fun c => c.views.length)) = some 0 then
        let (e2, sp3) := destroyActiveContainer e1 sp2
        uncheckSplitView (e2, { m1 with viewSplitter := sp3 })
      else some (e1, m1)

/-- The loop of `ViewManager::sessionFinished` over the views found. -/
def sessionFinishedLoop (session : Session) :
    List View → Env × ViewSplitter × SessionMap → Env × ViewSplitter × SessionMap
  | [], st => st
  | view :: rest, (e, sp, map) =>
    let (s, map1) := SessionMap.index map view
    if s = some session then
      let (e1, sp1) := destroyView view e sp
      sessionFinishedLoop session rest (e1, sp1, SessionMap.remove map1 view)
    else sessionFinishedLoop session rest (e, sp, map1)

/-- Source function `ViewManager::sessionFinished`; the closing `focusActiveView()`
changes nothing in the state. -/
def sessionFinished (session : Session) (w : World) : World :=
  let (e, m) := w
  let (e1, sp1, map1) :=
    sessionFinishedLoop session m.viewSplitter.findChildren (e, m.viewSplitter, m.sessionMap)
  (e1, { m with viewSplitter := sp1, sessionMap := map1 })

/-- The loop of `ViewManager::createView` over the containers; `i` is the position of
the first container of the list in the splitter. -/
def createViewLoop (session : Session) (activeIndex : Nat) :
    Nat → List ViewContainer → Env × SessionMap → (Env × SessionMap) × List ViewContainer
  | _, [], st => (st, [])
  | i, container :: rest, (e, map) =>
    let (display, e1) := createTerminalDisplay e
    let (properties, e2) := createController session display e1
    let map1 := SessionMap.insert map display (some session)
    let c1 := container.addView display properties
    let e3 := e2.addView session display
    let c2 := if i = activeIndex then c1.setActiveView display else c1
    let (st, rest1) := createViewLoop session activeIndex (i + 1) rest (e3, map1)
    (st, c2 :: rest1)

/-- Lines 255-258 of `ViewManager::createView`: "create the default container" when
the splitter has none. -/
def withDefaultContainer (sp : ViewSplitter) : ViewSplitter :=
  if sp.containers.length = 0 then sp.addContainer createContainer else sp

/-- Source function `ViewManager::createView`.  The connection of the `done` signal
of the session and the focus request for the new view change nothing in the state. -/
def createView (session : Session) (w : World) : World :=
  let (e, m) := w
  let sp := withDefaultContainer m.viewSplitter
  let ((e1, map1), cs) :=
    createViewLoop session sp.activeIndex 0 sp.containers (e, m.sessionMap)
  (e1, { m with viewSplitter := { sp with containers := cs }, sessionMap := map1 })

/-- Source function `ViewManager::viewCloseRequest`. -/
def viewCloseRequest (view : View) (w : World) : World :=
  let (e, m) := w
  let (session, map1) := SessionMap.index m.sessionMap view
  match session with
  | some s =>
    let (e1, sp1) := destroyView view e m.viewSplitter
    let e2 := if (e1.views s).length = 0 then e1.closeSession s else e1
    (e2, { m with sessionMap := map1, viewSplitter := sp1 })
  | none => (e, { m with sessionMap := map1 })

/-- Source function `ViewManager::takeView`; the first component is this manager, the
second the other one.  The two containers are the active containers of the two
managers.  A view read from the other container has properties there; for a view
without properties the model has no result. -/
def takeView (view : View) (ms : ViewManager × ViewManager) :
    Option (ViewManager × ViewManager) :=
  let (self, other) := ms
  match other.viewSplitter.activeContainer, self.viewSplitter.activeContainer with
  | some otherContainer, some _ =>
    match otherContainer.viewProperties view with
    | none => none
    | some properties =>
      let osp := other.viewSplitter.modifyActive (fun c => c.removeView view)
      let ssp := self.viewSplitter.modifyActive (fun c => c.addView view properties)
      let (session, omap1) := SessionMap.index other.sessionMap view
      some ({ self with
              viewSplitter := ssp
              sessionMap := SessionMap.insert self.sessionMap view session },
            { other with
              viewSplitter := osp
              sessionMap := SessionMap.remove omap1 view })
  | _, _ => none

/-- The loop of `ViewManager::merge` over the views of the other container. -/
def mergeLoop : List View → ViewManager × ViewManager → Option (ViewManager × ViewManager)
  | [], ms => some ms
  | view :: rest, ms => (takeView view ms).bind (mergeLoop rest)

/-- Source function `ViewManager::merge`; the first component is this manager, the
second `otherManager`. -/
def merge (ms : ViewManager × ViewManager) : Option (ViewManager × ViewManager) :=
  match ms.2.viewSplitter.activeContainer with
  | none => none
  | some otherContainer => mergeLoop otherContainer.views ms

/-! ## Sequences of events -/

/-- The manager after the focus events of the controllers `cs`, in order. -/
def focusAll (cs : List Controller) (m : ViewManager) : ViewManager :=
  cs.foldl (fun m c => viewFocused c m) m

/-- The layout operations: a call of `splitView`, a flip of the "Split View" toggle
action by the user, and a call of `detachActiveView`. -/
inductive LayoutOp where
  | splitView (b : Bool)
  | splitViewToggled (b : Bool)
  | detachActiveView
deriving DecidableEq, Repr

/-- One layout operation. -/
def LayoutOp.apply : LayoutOp → World → Option World
  | .splitView b, w => Konsole.splitView b w
  | .splitViewToggled b, w => Konsole.splitViewToggled b w
  | .detachActiveView, w => Konsole.detachActiveView w

/-- A sequence of layout operations, each started in the state the one before left;
there is no result when one of them dereferences a null pointer. -/
def runLayout : List LayoutOp → World → Option World
  | [], w => some w
  | op :: ops, w => (op.apply w).bind (runLayout ops)

/-- The number of containers in the layout tree. -/
def containerCount (w : World) : Nat := w.2.viewSplitter.containers.length

/-- A manager with one container that shows session 7 in view 0 (controller 1). -/
def oneView : World :=
  (⟨2, [(7, 0)], []⟩,
   { ViewManager.new with
     viewSplitter := ⟨[⟨[(0, 1)], some 0⟩], 0⟩
     sessionMap := [(0, some 7)] })

/-- The world after the close request for view 0 of `oneView`, with the allocator at
the freed address 0. -/
def reusedAddress : World :=
  ((viewCloseRequest 0 oneView).1.reposition 0, (viewCloseRequest 0 oneView).2)

/-- A manager with two containers that show session 7, in views 0 and 2. -/
def twoContainers : World :=
  (⟨4, [(7, 0), (7, 2)], []⟩,
   { ViewManager.new with
     viewSplitter := ⟨[⟨[(0, 1)], some 0⟩, ⟨[(2, 3)], some 2⟩], 0⟩
     sessionMap := [(2, some 7), (0, some 7)] })

/-- The state the run of the witness for the single anchor ends in: one container,
left empty. -/
def emptied : World :=
  (⟨4, [], []⟩,
   { ViewManager.new with
     viewSplitter := ⟨[⟨[], none⟩], 0⟩
     viewDetached := [some 7, some 7] })

/-- A manager with two containers that both show sessions 7 and 8. -/
def twoSessions : World :=
  (⟨8, [(7, 0), (8, 2), (7, 4), (8, 6)], []⟩,
   { ViewManager.new with
     viewSplitter := ⟨[⟨[(0, 1), (2, 3)], some 2⟩, ⟨[(4, 5), (6, 7)], some 4⟩], 0⟩
     sessionMap := [(6, some 8), (4, some 7), (2, some 8), (0, some 7)] })

/-- A manager with one container that shows sessions 7 and 8. -/
def twoViews : World :=
  (⟨4, [(7, 0), (8, 2)], []⟩,
   { ViewManager.new with
     viewSplitter := ⟨[⟨[(0, 1), (2, 3)], some 2⟩], 0⟩
     sessionMap := [(2, some 8), (0, some 7)] })

/-- Another manager: one container that shows sessions 5 and 6 in views 10 and 12. -/
def otherManager : ViewManager :=
  { ViewManager.new with
    viewSplitter := ⟨[⟨[(10, 11), (12, 13)], some 10⟩], 0⟩
    sessionMap := [(12, some 6), (10, some 5)] }

/-- The container after `addView` for each of the pairs, in order. -/
def addViews (c : ViewContainer) (ps : List (View × Controller)) : ViewContainer :=
  ps.foldl (fun c p => c.addView p.1 p.2) c

/-- The container after `removeView` for each of the views, in order. -/
def removeViews (c : ViewContainer) (vs : List View) : ViewContainer :=
  vs.foldl (fun c v => c.removeView v) c

/-- The state the run of the witness for one view per session ends in. -/
def afterEvents : World :=
  (⟨28, [(7, 24)], [5]⟩,
   { ViewManager.new with
     viewSplitter := ⟨[⟨[(12, 13)], some 12⟩, ⟨[(24, 25)], some 24⟩], 0⟩
     sessionMap := [(12, some 6), (10, some 5), (24, some 7)]
     splitViewChecked := true
     viewDetached := [some 7] })

/-! ## Reachable states -/

/-- No container holds two different views whose map entries are the same session. -/
def OneViewPerSession (m : ViewManager) : Prop :=
  ∀ c ∈ m.viewSplitter.containers, ∀ v ∈ c.views, ∀ w ∈ c.views, ∀ s : Session,
    SessionMap.value m.sessionMap v = some (some s) →
    SessionMap.value m.sessionMap w = some (some s) → v = w

/-- The calls a manager receives; `merge` carries the other manager. -/
inductive Event where
  | createView (s : Session)
  | splitView (b : Bool)
  | splitViewToggled (b : Bool)
  | detachActiveView
  | sessionFinished (s : Session)
  | viewCloseRequest (v : View)
  | merge (other : ViewManager)

/-- One call; the world keeps this manager (for `merge`, the first component). -/
def Event.apply : Event → World → Option World
  | .createView s, w => some (Konsole.createView s w)
  | .splitView b, w => Konsole.splitView b w
  | .splitViewToggled b, w => Konsole.splitViewToggled b w
  | .detachActiveView, w => Konsole.detachActiveView w
  | .sessionFinished s, w => some (Konsole.sessionFinished s w)
  | .viewCloseRequest v, w => some (Konsole.viewCloseRequest v w)
  | .merge other, w => (Konsole.merge (w.2, other)).map (fun r => (w.1, r.1))

/-- A sequence of calls; no result when one of them dereferences a null pointer. -/
def run : List Event → World → Option World
  | [], w => some w
  | ev :: evs, w => (ev.apply w).bind (run evs)

/-- The session the map sends the view to; `none` without entry or with a null entry. -/
def boundSession (map : SessionMap) (v : View) : Option Session :=
  (SessionMap.value map v).getD none

/-- The condition on a merged manager: when it has an active container, the views of
that container are pairwise different, were allocated before, are held by no
container of this manager, are bound to pairwise different sessions, and none of
these sessions is bound to a view of this manager's active container. -/
def mergeAdmissible (w : World) (other : ViewManager) : Prop :=
  ∀ oc ∈ other.viewSplitter.activeContainer,
    oc.views.Nodup ∧
    (∀ v ∈ oc.views, v < w.1.next ∧ v ∉ w.2.liveViews) ∧
    (∀ v ∈ oc.views, ∀ u ∈ oc.views, (boundSession other.sessionMap v).isSome →
      boundSession other.sessionMap v = boundSession other.sessionMap u → v = u) ∧
    (∀ ac ∈ w.2.viewSplitter.activeContainer, ∀ v ∈ oc.views, ∀ u ∈ ac.views,
      (boundSession other.sessionMap v).isSome →
      boundSession other.sessionMap v ≠ boundSession w.2.sessionMap u)

/-- The calls of the amended claim: `createView(s)` only for a session that no view
held by a container is mapped to, `merge` only with a manager that satisfies
`mergeAdmissible`; the other calls always. -/
def Event.admissible : Event → World → Prop
  | .createView s, w =>
    ∀ v ∈ w.2.liveViews, SessionMap.value w.2.sessionMap v ≠ some (some s)
  | .merge other, w => mergeAdmissible w other
  | _, _ => True

/-- The states a freshly constructed manager reaches by admissible calls. -/
inductive Reachable : World → Prop where
  | init (e : Env) : Reachable (e, ViewManager.new)
  | step {w w' : World} (ev : Event) :
      Reachable w → ev.admissible w → ev.apply w = some w' → Reachable w'

/-- The invariant behind one view per session: it holds, no container holds a view
twice, and every view held by a container was allocated before. -/
def Inv (w : World) : Prop :=
  OneViewPerSession w.2 ∧
  (∀ c ∈ w.2.viewSplitter.containers, c.views.Nodup) ∧
  (∀ v ∈ w.2.liveViews, v < w.1.next)

/-- The second world has the allocation counter of the first, each of its containers
holds some of the views of a container of the first, in order, and each of its map
entries to a session is an entry of the first. -/
def Shrinks (w w' : World) : Prop :=
  w'.1.next = w.1.next ∧
  (∀ c' ∈ w'.2.viewSplitter.containers, ∃ c ∈ w.2.viewSplitter.containers,
    c'.views.Sublist c.views) ∧
  (∀ (v : View) (s : Session), SessionMap.value w'.2.sessionMap v = some (some s) →
    SessionMap.value w.2.sessionMap v = some (some s))

/-! ## Focus and plugging -/

theorem viewFocused_plugged (c : Controller) (m : ViewManager) :
    (viewFocused c m).pluggedController = some c := by
  unfold viewFocused
  by_cases h : m.pluggedController = some c
  · simp [h]
  · cases hp : m.pluggedController <;> simp_all

theorem viewFocused_clients (c : Controller) (m : ViewManager)
    (h : m.guiClients = m.pluggedController.toList) :
    (viewFocused c m).guiClients = (viewFocused c m).pluggedController.toList := by
  unfold viewFocused
  by_cases hc : m.pluggedController = some c
  · simp [hc, h]
  · cases hp : m.pluggedController with
    | none => simp_all
    | some p => simp_all [Option.toList]

theorem focusAll_clients (cs : List Controller) (m : ViewManager)
    (h : m.guiClients = m.pluggedController.toList) :
    (focusAll cs m).guiClients = (focusAll cs m).pluggedController.toList := by
  induction cs generalizing m with
  | nil => simpa [focusAll] using h
  | cons c cs ih => exact ih (viewFocused c m) (viewFocused_clients c m h)

theorem focusAll_append (cs ds : List Controller) (m : ViewManager) :
    focusAll (cs ++ ds) m = focusAll ds (focusAll cs m) := by
  simp [focusAll, List.foldl_append]

/-- C9: from a state with no plugged controller and no client in the global UI, after
any sequence of focus events the clients registered in the global UI are exactly the
plugged controller (so at most one); focusing `a` and then a different `b` leaves
exactly `b` registered and plugged, and `a` not registered; a focus event of the
controller that is already plugged changes nothing. -/
theorem plug_exclusivity (m0 : ViewManager) (h0 : m0.pluggedController = none)
    (h1 : m0.guiClients = []) :
    (∀ cs : List Controller,
      (focusAll cs m0).guiClients = (focusAll cs m0).pluggedController.toList ∧
      (focusAll cs m0).guiClients.length ≤ 1) ∧
    (∀ (cs : List Controller) (a b : Controller), a ≠ b →
      (focusAll (cs ++ [a, b]) m0).guiClients = [b] ∧
      (focusAll (cs ++ [a, b]) m0).pluggedController = some b ∧
      a ∉ (focusAll (cs ++ [a, b]) m0).guiClients) ∧
    (∀ (m : ViewManager) (c : Controller), m.pluggedController = some c →
      viewFocused c m = m) := by
  have inv : ∀ cs : List Controller,
      (focusAll cs m0).guiClients = (focusAll cs m0).pluggedController.toList :=
    fun cs => focusAll_clients cs m0 (by simp [h0, h1])
  refine ⟨fun cs => ⟨inv cs, ?_⟩, ?_, ?_⟩
  · rw [inv cs]
    cases (focusAll cs m0).pluggedController <;> simp [Option.toList]
  · intro cs a b hab
    have hp : (focusAll (cs ++ [a, b]) m0).pluggedController = some b := by
      rw [focusAll_append]
      simp [focusAll, viewFocused_plugged]
    have hg := inv (cs ++ [a, b])
    rw [hp] at hg
    refine ⟨by simpa [Option.toList] using hg, hp, ?_⟩
    rw [hg]
    simpa [Option.toList] using hab
  · intro m c hc
    simp [viewFocused, hc]

/-- Witness for C9 at the freshly constructed manager. -/
theorem plug_exclusivity_witness :
    (focusAll [4, 6] ViewManager.new).guiClients = [6] ∧
    (focusAll [4, 6] ViewManager.new).pluggedController = some 6 ∧
    viewFocused 6 (focusAll [4, 6] ViewManager.new) = focusAll [4, 6] ViewManager.new := by
  have h := plug_exclusivity ViewManager.new rfl rfl
  exact ⟨(h.2.1 [] 4 6 (by decide)).1, (h.2.1 [] 4 6 (by decide)).2.1,
    h.2.2 _ 6 (h.2.1 [] 4 6 (by decide)).2.1⟩

/-- C7: the manager has controller 1 plugged and is subscribed to its title changes;
after the focus event of controller 2 the manager is subscribed to controller 2 and is
still subscribed to controller 1, which is no longer the plugged one (line 183
disconnects the new controller, not the plugged one), so a title change of
controller 1 still sets the caption of the window. -/
theorem viewFocused_keeps_old_title_connection :
    (viewFocused 1 ViewManager.new).pluggedController = some 1 ∧
    (viewFocused 1 ViewManager.new).titleConnections = [1] ∧
    (viewFocused 2 (viewFocused 1 ViewManager.new)).pluggedController = some 2 ∧
    (viewFocused 2 (viewFocused 1 ViewManager.new)).titleConnections = [2, 1] ∧
    (viewFocused 2 (viewFocused 1 ViewManager.new)).guiClients = [2] ∧
    (titleChanged 1 "one" (viewFocused 2 (viewFocused 1 ViewManager.new))).caption
      = some "one" :=
  ⟨by decide, by decide, by decide, by decide, by decide, rfl⟩

/-! ## The view-session map -/

namespace SessionMap

theorem value_remove (m : SessionMap) (v w : View) :
    value (remove m v) w = if w = v then none else value m w := by
  induction m with
  | nil => simp [remove, value]
  | cons p m ih =>
    obtain ⟨k, s⟩ := p
    unfold remove at ih ⊢
    by_cases hk : k = v
    · subst hk
      simp only [List.filter_cons, ne_eq, not_true_eq_false, decide_False]
      simp only [Bool.false_eq_true, if_false, ih, value]
      by_cases hw : w = k
      · simp [hw]
      · have : ¬ k = w := fun h => hw h.symm
        simp [hw, this]
    · simp only [List.filter_cons, ne_eq, hk, not_false_eq_true, decide_True, if_true, value, ih]
      by_cases hw : w = v
      · subst hw; simp [hk]
      · simp [hw]

theorem value_insert (m : SessionMap) (v w : View) (s : Option Session) :
    value (insert m v s) w = if w = v then some s else value m w := by
  unfold insert
  simp only [value, value_remove]
  by_cases hw : w = v
  · subst hw; simp
  · have : ¬ v = w := fun h => hw h.symm
    simp [hw, this]

theorem index_fst (m : SessionMap) (v : View) :
    (index m v).1 = (value m v).getD none := by
  unfold index
  cases value m v <;> rfl

theorem index_of_value {m : SessionMap} {v : View} {s : Option Session}
    (h : value m v = some s) : index m v = (s, m) := by
  simp [index, h]

theorem index_of_none {m : SessionMap} {v : View}
    (h : value m v = none) : index m v = (none, insert m v none) := by
  simp [index, h]

theorem value_index (m : SessionMap) (v w : View) :
    value (index m v).2 w = if w = v then some ((value m v).getD none) else value m w := by
  cases h : value m v with
  | none =>
    rw [index_of_none h]
    simp [value_insert]
  | some s =>
    rw [index_of_value h]
    by_cases hw : w = v
    · subst hw; simp [h]
    · simp [hw]

theorem remove_of_value_none {m : SessionMap} {v : View} (h : value m v = none) :
    remove m v = m := by
  induction m with
  | nil => rfl
  | cons p m ih =>
    obtain ⟨k, s⟩ := p
    by_cases hk : k = v
    · simp [value, hk] at h
    · simp only [value, hk, if_false] at h
      have := ih h
      unfold remove at this ⊢
      rw [List.filter_cons]
      simp only [ne_eq, hk, not_false_eq_true, decide_True, if_true]
      rw [this]

end SessionMap

/-! ## Close requests -/

/-- C10, as the code has it: a close request for a view without map entry destroys
no view and closes no session; the surroundings, the layout tree with its containers
and views and all other parts of the manager stay as they were, and so does every
existing map entry; the map gains one entry, which sends the view to the null
session. -/
theorem viewCloseRequest_unmapped (view : View) (e : Env) (m : ViewManager)
    (h : SessionMap.value m.sessionMap view = none) :
    viewCloseRequest view (e, m) =
      (e, { m with sessionMap := (view, none) :: m.sessionMap }) ∧
    (viewCloseRequest view (e, m)).1.closed = e.closed ∧
    (viewCloseRequest view (e, m)).2.liveViews = m.liveViews ∧
    (viewCloseRequest view (e, m)).2.viewSplitter = m.viewSplitter ∧
    SessionMap.value (viewCloseRequest view (e, m)).2.sessionMap view = some none ∧
    (∀ w, w ≠ view → SessionMap.value (viewCloseRequest view (e, m)).2.sessionMap w =
      SessionMap.value m.sessionMap w) := by
  have hr : viewCloseRequest view (e, m) =
      (e, { m with sessionMap := (view, none) :: m.sessionMap }) := by
    simp [viewCloseRequest, SessionMap.index_of_none h, SessionMap.insert,
      SessionMap.remove_of_value_none h]
  refine ⟨hr, ?_, ?_, ?_, ?_, ?_⟩
  · rw [hr]
  · rw [hr]; rfl
  · rw [hr]
  · rw [hr]; simp [SessionMap.value]
  · intro w hw
    rw [hr]
    have : ¬ view = w := fun h => hw h.symm
    simp [SessionMap.value, this]

/-- Witness for C10: view 5 has no entry in the manager that shows view 0. -/
theorem viewCloseRequest_unmapped_witness :
    SessionMap.value oneView.2.sessionMap 5 = none ∧
    (viewCloseRequest 5 oneView).2.viewSplitter = oneView.2.viewSplitter ∧
    SessionMap.value (viewCloseRequest 5 oneView).2.sessionMap 5 = some none :=
  ⟨by decide, (viewCloseRequest_unmapped 5 oneView.1 oneView.2 (by decide)).2.2.2.1,
    (viewCloseRequest_unmapped 5 oneView.1 oneView.2 (by decide)).2.2.2.2.1⟩

/-- C10 fails as stated: view 5 has no map entry, and the close request for it does
not leave the view-session map as it was. -/
theorem viewCloseRequest_unmapped_changes_map :
    SessionMap.value oneView.2.sessionMap 5 = none ∧
    (viewCloseRequest 5 oneView).2.sessionMap ≠ oneView.2.sessionMap ∧
    SessionMap.value (viewCloseRequest 5 oneView).2.sessionMap 5 ≠
      SessionMap.value oneView.2.sessionMap 5 := by
  decide

/-- C2: the close request for the mapped view 0 destroys it (no container holds it
afterwards) and the map still has its entry; `splitView(false)` on two containers
destroys the active container with its view 0 and the map still has the entry of
view 0. -/
theorem destroyed_view_keeps_map_entry :
    (viewCloseRequest 0 oneView).2.liveViews = [] ∧
    SessionMap.value (viewCloseRequest 0 oneView).2.sessionMap 0 = some (some 7) ∧
    (splitView false twoContainers).map (fun w => w.2.liveViews) = some [2] ∧
    (splitView false twoContainers).map (fun w => SessionMap.value w.2.sessionMap 0) =
      some (some (some 7)) := by
  decide

/-! ## The number of containers -/

theorem length_modifyAt {α : Type} (f : α → α) (i : Nat) (l : List α) :
    (modifyAt f i l).length = l.length := by
  induction l generalizing i with
  | nil => cases i <;> rfl
  | cons a l ih =>
    cases i with
    | zero => rfl
    | succ i => simp [modifyAt, ih]

theorem splitViewFocus_some {w w' : World} (h : splitViewFocus w = some w') : w' = w := by
  unfold splitViewFocus at h
  split at h
  · cases h
  · split at h
    · cases h
    · cases h; rfl

theorem destroyActiveContainer_count (e : Env) (sp : ViewSplitter) :
    sp.containers.length - 1 ≤ (destroyActiveContainer e sp).2.containers.length ∧
    (destroyActiveContainer e sp).2.containers.length ≤ sp.containers.length := by
  unfold destroyActiveContainer
  cases sp.activeContainer with
  | none => simp
  | some c =>
    simp only [ViewSplitter.deleteActive]
    have h1 := List.length_eraseIdx_le sp.containers sp.activeIndex
    have h2 := List.length_eraseIdx sp.containers sp.activeIndex
    constructor
    · rw [h2]; split <;> omega
    · exact h1

theorem splitViewBranch_count {b : Bool} {w w' : World} (h : splitViewBranch b w = some w') :
    (1 ≤ containerCount w → 1 ≤ containerCount w') ∧
    (containerCount w' < containerCount w → b = false ∧ 1 < containerCount w) := by
  obtain ⟨e, m⟩ := w
  unfold splitViewBranch at h
  simp only at h
  cases b with
  | true =>
    simp only [if_true] at h
    split at h
    · cases h
    · split at h
      · cases h
      · cases h
        simp [containerCount, ViewSplitter.addContainer]
  | false =>
    simp only [Bool.false_eq_true, if_false] at h
    split at h
    · rename_i hlen
      cases h
      have hc := destroyActiveContainer_count e m.viewSplitter
      simp only [containerCount]
      constructor
      · intro _; omega
      · intro _; exact ⟨trivial, hlen⟩
    · cases h
      simp [containerCount]

theorem splitView_count {b : Bool} {w w' : World} (h : splitView b w = some w') :
    (1 ≤ containerCount w → 1 ≤ containerCount w') ∧
    (containerCount w' < containerCount w → b = false ∧ 1 < containerCount w) := by
  unfold splitView at h
  cases hb : splitViewBranch b w with
  | none => simp [hb] at h
  | some w1 =>
    rw [hb] at h
    have := splitViewFocus_some h
    subst this
    exact splitViewBranch_count hb

theorem uncheckSplitView_count {w w' : World} (h : uncheckSplitView w = some w') :
    (1 ≤ containerCount w → 1 ≤ containerCount w') ∧
    (containerCount w' < containerCount w → 1 < containerCount w) := by
  unfold uncheckSplitView at h
  split at h
  · have := splitView_count h
    exact ⟨this.1, fun hlt => (this.2 hlt).2⟩
  · cases h
    exact ⟨id, fun hlt => absurd hlt (Nat.lt_irrefl _)⟩

theorem detachActiveView_count {w w' : World} (h : detachActiveView w = some w') :
    (1 ≤ containerCount w → 1 ≤ containerCount w') ∧
    (containerCount w' < containerCount w → 1 < containerCount w) := by
  obtain ⟨e, m⟩ := w
  unfold detachActiveView at h
  simp only at h
  split at h
  · cases h
  · split at h
    · cases h
      exact ⟨id, fun hlt => absurd hlt (Nat.lt_irrefl _)⟩
    · rename_i activeView _
      have hlen : ((destroyView activeView e
          (m.viewSplitter.modifyActive (fun c => c.removeView activeView))).2).containers.length
          = m.viewSplitter.containers.length := by
        simp [destroyView, ViewSplitter.dropView, ViewSplitter.modifyActive, length_modifyAt]
      split at h
      · rename_i hcond
        have hu := uncheckSplitView_count h
        have hc := destroyActiveContainer_count
          (destroyView activeView e
            (m.viewSplitter.modifyActive (fun c => c.removeView activeView))).1
          (destroyView activeView e
            (m.viewSplitter.modifyActive (fun c => c.removeView activeView))).2
        have hgt := hcond.1
        simp only [containerCount] at hu ⊢
        rw [hlen] at hc hgt
        constructor
        · intro _
          apply hu.1
          omega
        · intro _; exact hgt
      · cases h
        simp only [containerCount]
        rw [hlen]
        exact ⟨id, fun hlt => absurd hlt (Nat.lt_irrefl _)⟩

theorem LayoutOp.apply_count {op : LayoutOp} {w w' : World} (h : op.apply w = some w')
    (hw : 1 ≤ containerCount w) : 1 ≤ containerCount w' := by
  cases op with
  | splitView b => exact (splitView_count h).1 hw
  | splitViewToggled b => exact (splitView_count h).1 hw
  | detachActiveView => exact (detachActiveView_count h).1 hw

/-- C1: from any manager state with at least one container, after every finite
sequence of `splitView(true)`, `splitView(false)` and `detachActiveView` calls (and of
flips of the "Split View" toggle action) the layout tree has at least one container,
also at the point where `splitView` reaches its final focus statement; a `splitView`
call or a `detachActiveView` call that lowers the number of containers was started
with more than one container, and such a `splitView` call is `splitView(false)`. -/
theorem single_anchor :
    (∀ (ops : List LayoutOp) (w w' : World), 1 ≤ containerCount w →
      runLayout ops w = some w' → 1 ≤ containerCount w') ∧
    (∀ (b : Bool) (w w' : World), 1 ≤ containerCount w →
      splitViewBranch b w = some w' → 1 ≤ containerCount w') ∧
    (∀ (b : Bool) (w w' : World), splitView b w = some w' →
      containerCount w' < containerCount w → b = false ∧ 1 < containerCount w) ∧
    (∀ (w w' : World), detachActiveView w = some w' →
      containerCount w' < containerCount w → 1 < containerCount w) := by
  refine ⟨?_, fun b w w' hw h => (splitViewBranch_count h).1 hw,
    fun b w w' h => (splitView_count h).2, fun w w' h => (detachActiveView_count h).2⟩
  intro ops
  induction ops with
  | nil =>
    intro w w' hw h
    simp only [runLayout, Option.some.injEq] at h
    subst h
    exact hw
  | cons op ops ih =>
    intro w w' hw h
    simp only [runLayout] at h
    cases hop : op.apply w with
    | none => simp [hop] at h
    | some w1 =>
      rw [hop] at h
      exact ih w1 w' (LayoutOp.apply_count hop hw) h

/-- Witness for C1: split by the toggle action, then detach twice; the last container
is left empty. -/
theorem single_anchor_witness :
    1 ≤ containerCount oneView ∧
    runLayout [.splitViewToggled true, .detachActiveView, .detachActiveView] oneView
      = some emptied ∧
    1 ≤ containerCount emptied :=
  ⟨by decide, by decide,
    single_anchor.1 [.splitViewToggled true, .detachActiveView, .detachActiveView]
      oneView emptied (by decide) (by decide)⟩

/-! ## Session termination -/

theorem getD_eq_some_iff (x : Option (Option Session)) (s : Session) :
    x.getD none = some s ↔ x = some (some s) := by
  cases x with
  | none => simp
  | some y => simp

theorem sessionFinishedLoop_spec (session : Session) (L : List View) (hL : L.Nodup)
    (e : Env) (sp : ViewSplitter) (map : SessionMap) :
    (sessionFinishedLoop session L (e, sp, map)).2.1.containers.map ViewContainer.items =
      sp.containers.map (fun c => c.items.filter (fun p =>
        decide (¬ (p.1 ∈ L ∧ SessionMap.value map p.1 = some (some session))))) ∧
    (∀ v, SessionMap.value (sessionFinishedLoop session L (e, sp, map)).2.2 v =
      if v ∈ L then
        (if SessionMap.value map v = some (some session) then none
          else some ((SessionMap.value map v).getD none))
      else SessionMap.value map v) := by
  induction L generalizing e sp map with
  | nil =>
    simp [sessionFinishedLoop]
  | cons v rest ih =>
    have hv : v ∉ rest := (List.nodup_cons.mp hL).1
    have hrest : rest.Nodup := (List.nodup_cons.mp hL).2
    have hidx : SessionMap.index map v =
        ((SessionMap.value map v).getD none, (SessionMap.index map v).2) :=
      Prod.ext (SessionMap.index_fst map v) rfl
    unfold sessionFinishedLoop
    rw [hidx]
    simp only
    by_cases hs : (SessionMap.value map v).getD none = some session
    · have hs' : SessionMap.value map v = some (some session) := (getD_eq_some_iff _ _).mp hs
      simp only [hs, if_true, destroyView]
      obtain ⟨ih1, ih2⟩ := ih hrest (e.viewDestroyed v) (sp.dropView v)
        (SessionMap.remove (SessionMap.index map v).2 v)
      have hval : ∀ w, SessionMap.value (SessionMap.remove (SessionMap.index map v).2 v) w
          = if w = v then none else SessionMap.value map w := by
        intro w
        rw [SessionMap.value_remove, SessionMap.value_index]
        by_cases hw : w = v <;> simp [hw]
      constructor
      · rw [ih1]
        simp only [ViewSplitter.dropView, List.map_map]
        apply List.map_congr_left
        intro c _
        simp only [Function.comp, ViewContainer.removeView, List.filter_filter]
        apply List.filter_congr
        intro p _
        rw [hval]
        by_cases hp : p.1 = v
        · simp [hp, hs']
        · simp [hp]
      · intro w
        rw [ih2, hval]
        by_cases hw : w = v
        · subst hw; simp [hv, hs']
        · simp [hw]
    · have hs' : ¬ SessionMap.value map v = some (some session) :=
        fun h => hs ((getD_eq_some_iff _ _).mpr h)
      simp only [hs, if_false]
      obtain ⟨ih1, ih2⟩ := ih hrest e sp (SessionMap.index map v).2
      have hval : ∀ w, SessionMap.value (SessionMap.index map v).2 w
          = if w = v then some ((SessionMap.value map v).getD none)
            else SessionMap.value map w := SessionMap.value_index map v
      constructor
      · rw [ih1]
        apply List.map_congr_left
        intro c _
        apply List.filter_congr
        intro p _
        rw [hval]
        by_cases hp : p.1 = v
        · simp [hp, hv, hs']
        · simp [hp]
      · intro w
        rw [ih2, hval]
        by_cases hw : w = v
        · subst hw; simp [hv, hs', hs]
        · simp [hw]

theorem mem_allViews {sp : ViewSplitter} {v : View} :
    v ∈ sp.allViews ↔ ∃ c ∈ sp.containers, v ∈ c.views := by
  simp [ViewSplitter.allViews, List.mem_flatten]

theorem mem_findChildren {sp : ViewSplitter} {v : View} :
    v ∈ sp.findChildren ↔ v ∈ sp.allViews := by
  simp [ViewSplitter.findChildren, List.mem_dedup]

theorem sessionFinished_splitter (session : Session) (e : Env) (m : ViewManager) :
    (sessionFinished session (e, m)).2.viewSplitter =
      (sessionFinishedLoop session m.viewSplitter.findChildren
        (e, m.viewSplitter, m.sessionMap)).2.1 := rfl

theorem sessionFinished_sessionMap (session : Session) (e : Env) (m : ViewManager) :
    (sessionFinished session (e, m)).2.sessionMap =
      (sessionFinishedLoop session m.viewSplitter.findChildren
        (e, m.viewSplitter, m.sessionMap)).2.2 := rfl

/-- C5: in a manager state in which every view held by a container has a map entry,
`sessionFinished(s)` leaves the number of containers unchanged, every container
keeps, in order, exactly its views whose entry is not `s` (so the views destroyed
are exactly the views held by a container whose entry is `s`), the entries of the
destroyed views are erased and every other entry of the map is as before. -/
theorem sessionFinished_cleanup (session : Session) (e : Env) (m : ViewManager)
    (hmapped : ∀ v ∈ m.liveViews, SessionMap.value m.sessionMap v ≠ none) :
    (sessionFinished session (e, m)).2.viewSplitter.containers.length =
      m.viewSplitter.containers.length ∧
    (sessionFinished session (e, m)).2.viewSplitter.containers.map ViewContainer.items =
      m.viewSplitter.containers.map (fun c => c.items.filter (fun p =>
        decide (SessionMap.value m.sessionMap p.1 ≠ some (some session)))) ∧
    (∀ v, v ∈ (sessionFinished session (e, m)).2.liveViews ↔
      (v ∈ m.liveViews ∧ SessionMap.value m.sessionMap v ≠ some (some session))) ∧
    (∀ v, SessionMap.value (sessionFinished session (e, m)).2.sessionMap v =
      if v ∈ m.liveViews ∧ SessionMap.value m.sessionMap v = some (some session) then none
      else SessionMap.value m.sessionMap v) := by
  obtain ⟨h1, h2⟩ := sessionFinishedLoop_spec session m.viewSplitter.findChildren
    (List.nodup_dedup _) e m.viewSplitter m.sessionMap
  have hitems : (sessionFinished session (e, m)).2.viewSplitter.containers.map
      ViewContainer.items =
      m.viewSplitter.containers.map (fun c => c.items.filter (fun p =>
        decide (SessionMap.value m.sessionMap p.1 ≠ some (some session)))) := by
    rw [sessionFinished_splitter, h1]
    apply List.map_congr_left
    intro c hc
    apply List.filter_congr
    intro p hp
    have hlive : p.1 ∈ m.viewSplitter.findChildren := by
      rw [mem_findChildren, mem_allViews]
      exact ⟨c, hc, List.mem_map_of_mem Prod.fst hp⟩
    simp [hlive]
  refine ⟨?_, hitems, ?_, ?_⟩
  · have := congrArg List.length hitems
    simpa using this
  · intro v
    have hviews : (sessionFinished session (e, m)).2.viewSplitter.containers.map
        ViewContainer.views =
        m.viewSplitter.containers.map (fun c => (c.items.filter (fun p =>
          decide (SessionMap.value m.sessionMap p.1 ≠ some (some session)))).map Prod.fst) := by
      have := congrArg (List.map (List.map Prod.fst)) hitems
      simpa [List.map_map, Function.comp, ViewContainer.views] using this
    simp only [ViewManager.liveViews, ViewSplitter.allViews, hviews]
    simp only [List.mem_flatten, List.mem_map, ViewContainer.views]
    constructor
    · rintro ⟨l, ⟨c, hc, rfl⟩, hv⟩
      simp only [List.mem_map, List.mem_filter] at hv
      obtain ⟨p, ⟨hp, hne⟩, rfl⟩ := hv
      exact ⟨⟨_, ⟨c, hc, rfl⟩, List.mem_map_of_mem Prod.fst hp⟩, by simpa using hne⟩
    · rintro ⟨⟨l, ⟨c, hc, rfl⟩, hv⟩, hne⟩
      refine ⟨_, ⟨c, hc, rfl⟩, ?_⟩
      simp only [List.mem_map] at hv ⊢
      obtain ⟨p, hp, rfl⟩ := hv
      exact ⟨p, List.mem_filter.mpr ⟨hp, by simpa using hne⟩, rfl⟩
  · intro v
    rw [sessionFinished_sessionMap, h2 v]
    by_cases hv : v ∈ m.liveViews
    · have hv' : v ∈ m.viewSplitter.findChildren := mem_findChildren.mpr hv
      have hne := hmapped v hv
      cases hval : SessionMap.value m.sessionMap v with
      | none => exact absurd hval hne
      | some x => simp [hv, hv']
    · have hv' : v ∉ m.viewSplitter.findChildren := fun h => hv (mem_findChildren.mp h)
      simp [hv, hv']

/-- Witness for C5: session 7 finishes in a manager with two containers that both
show sessions 7 and 8. -/
theorem sessionFinished_cleanup_witness :
    twoSessions.2.liveViews.map (SessionMap.value twoSessions.2.sessionMap) =
      [some (some 7), some (some 8), some (some 7), some (some 8)] ∧
    (sessionFinished 7 twoSessions).2.viewSplitter.containers.length = 2 ∧
    (sessionFinished 7 twoSessions).2.viewSplitter.containers.map ViewContainer.items =
      [[(2, 3)], [(6, 7)]] :=
  ⟨by decide, (sessionFinished_cleanup 7 twoSessions.1 twoSessions.2 (by decide)).1,
    (sessionFinished_cleanup 7 twoSessions.1 twoSessions.2 (by decide)).2.1⟩

/-! ## Session broadcast -/

theorem createViewLoop_spec (session : Session) (active : Nat) (cs : List ViewContainer) :
    ∀ (i : Nat) (e : Env) (map : SessionMap),
    (createViewLoop session active i cs (e, map)).1.1.next = e.next + 2 * cs.length ∧
    (createViewLoop session active i cs (e, map)).2.length = cs.length ∧
    (∀ (j : Nat) (c : ViewContainer), cs[j]? = some c →
      (createViewLoop session active i cs (e, map)).2[j]? =
        some (if i + j = active
          then (c.addView (e.next + 2 * j) (e.next + 2 * j + 1)).setActiveView (e.next + 2 * j)
          else c.addView (e.next + 2 * j) (e.next + 2 * j + 1))) ∧
    (∀ j, j < cs.length →
      SessionMap.value (createViewLoop session active i cs (e, map)).1.2 (e.next + 2 * j)
        = some (some session)) ∧
    (∀ v, v < e.next →
      SessionMap.value (createViewLoop session active i cs (e, map)).1.2 v
        = SessionMap.value map v) := by
  induction cs with
  | nil =>
    intro i e map
    simp [createViewLoop]
  | cons c rest ih =>
    intro i e map
    have step : createViewLoop session active i (c :: rest) (e, map) =
        ((createViewLoop session active (i + 1) rest
            (⟨e.next + 1 + 1, e.sessionViews ++ [(session, e.next)], e.closed⟩,
              SessionMap.insert map e.next (some session))).1,
          (if i = active
            then (c.addView e.next (e.next + 1)).setActiveView e.next
            else c.addView e.next (e.next + 1)) ::
          (createViewLoop session active (i + 1) rest
            (⟨e.next + 1 + 1, e.sessionViews ++ [(session, e.next)], e.closed⟩,
              SessionMap.insert map e.next (some session))).2) := rfl
    obtain ⟨ih1, ih2, ih3, ih4, ih5⟩ := ih (i + 1)
      ⟨e.next + 1 + 1, e.sessionViews ++ [(session, e.next)], e.closed⟩
      (SessionMap.insert map e.next (some session))
    rw [step]
    simp only at ih1 ih2 ih3 ih4 ih5 ⊢
    refine ⟨?_, ?_, ?_, ?_, ?_⟩
    · rw [ih1, List.length_cons]; omega
    · simp [ih2]
    · intro j c' hj
      cases j with
      | zero =>
        simp only [List.getElem?_cons_zero, Option.some.injEq] at hj
        subst hj
        simp
      | succ j =>
        simp only [List.getElem?_cons_succ] at hj ⊢
        rw [ih3 j c' hj]
        have h1 : e.next + 1 + 1 + 2 * j = e.next + 2 * (j + 1) := by omega
        have h2 : i + 1 + j = i + (j + 1) := by omega
        rw [h1, h2]
    · intro j hj
      cases j with
      | zero =>
        have h5 := ih5 e.next (by omega)
        rw [SessionMap.value_insert] at h5
        simpa using h5
      | succ j =>
        have h1 : e.next + 2 * (j + 1) = e.next + 1 + 1 + 2 * j := by omega
        rw [h1]
        exact ih4 j (by simpa using hj)
    · intro v hv
      rw [ih5 v (by omega), SessionMap.value_insert]
      have : v ≠ e.next := by omega
      simp [this]

theorem createView_containers (session : Session) (e : Env) (m : ViewManager) :
    (createView session (e, m)).2.viewSplitter.containers =
      (createViewLoop session (withDefaultContainer m.viewSplitter).activeIndex 0
        (withDefaultContainer m.viewSplitter).containers (e, m.sessionMap)).2 := rfl

theorem createView_activeIndex (session : Session) (e : Env) (m : ViewManager) :
    (createView session (e, m)).2.viewSplitter.activeIndex =
      (withDefaultContainer m.viewSplitter).activeIndex := rfl

theorem createView_sessionMap (session : Session) (e : Env) (m : ViewManager) :
    (createView session (e, m)).2.sessionMap =
      (createViewLoop session (withDefaultContainer m.viewSplitter).activeIndex 0
        (withDefaultContainer m.viewSplitter).containers (e, m.sessionMap)).1.2 := rfl

theorem createView_next (session : Session) (e : Env) (m : ViewManager) :
    (createView session (e, m)).1.next =
      e.next + 2 * (withDefaultContainer m.viewSplitter).containers.length :=
  (createViewLoop_spec session _ _ 0 e m.sessionMap).1

theorem createViewLoop_value_other (session : Session) (active : Nat)
    (cs : List ViewContainer) :
    ∀ (i : Nat) (e : Env) (map : SessionMap) (v : View),
    (∀ j : Nat, j < cs.length → v ≠ e.next + 2 * j) →
    SessionMap.value (createViewLoop session active i cs (e, map)).1.2 v
      = SessionMap.value map v := by
  induction cs with
  | nil =>
    intro i e map v _
    simp [createViewLoop]
  | cons c rest ih =>
    intro i e map v hv
    have step : (createViewLoop session active i (c :: rest) (e, map)).1 =
        (createViewLoop session active (i + 1) rest
            (⟨e.next + 1 + 1, e.sessionViews ++ [(session, e.next)], e.closed⟩,
              SessionMap.insert map e.next (some session))).1 := rfl
    rw [step, ih (i + 1) ⟨e.next + 1 + 1, e.sessionViews ++ [(session, e.next)], e.closed⟩
      (SessionMap.insert map e.next (some session)) v, SessionMap.value_insert]
    · have h0 : v ≠ e.next := by
        have := hv 0 (Nat.succ_pos _)
        simpa using this
      simp [h0]
    · intro j hj heq
      apply hv (j + 1) (Nat.succ_lt_succ hj)
      rw [heq]
      show (e.next + 1 + 1 + 2 * j : Nat) = e.next + 2 * (j + 1)
      omega

/-- Session broadcast: in a manager state whose views held by containers lie below
the position of the allocator, `createView(s)` first adds a container when there is
none and then gives every container exactly one new view, appended at the end; the
new view of the container at position `j` is the handle `e.next + 2 * j` (held by no
container before, and different for different containers), the map sends it to `s`,
and it is the active view of the active container; the number of containers, the
active container, the views the containers held, the map entry of every view held
by a container and every map entry whose key is none of the new handles are
unchanged. -/
theorem createView_broadcast (session : Session) (e : Env) (m : ViewManager)
    (hviews : ∀ v ∈ m.liveViews, v < e.next) :
    (m.viewSplitter.containers ≠ [] → withDefaultContainer m.viewSplitter = m.viewSplitter) ∧
    (m.viewSplitter.containers = [] →
      withDefaultContainer m.viewSplitter = ⟨[ViewContainer.empty], 0⟩) ∧
    (createView session (e, m)).2.viewSplitter.containers.length =
      (withDefaultContainer m.viewSplitter).containers.length ∧
    (createView session (e, m)).2.viewSplitter.activeIndex =
      (withDefaultContainer m.viewSplitter).activeIndex ∧
    (∀ (j : Nat) (c : ViewContainer),
        (withDefaultContainer m.viewSplitter).containers[j]? = some c →
      ∃ c', (createView session (e, m)).2.viewSplitter.containers[j]? = some c' ∧
        c'.items = c.items ++ [(e.next + 2 * j, e.next + 2 * j + 1)] ∧
        (j = (withDefaultContainer m.viewSplitter).activeIndex →
          c'.active = some (e.next + 2 * j)) ∧
        e.next + 2 * j ∉ m.liveViews ∧
        SessionMap.value (createView session (e, m)).2.sessionMap (e.next + 2 * j)
          = some (some session)) ∧
    (∀ v ∈ m.liveViews,
      SessionMap.value (createView session (e, m)).2.sessionMap v =
        SessionMap.value m.sessionMap v) ∧
    (∀ v : View,
      (∀ j : Nat, j < (withDefaultContainer m.viewSplitter).containers.length →
        v ≠ e.next + 2 * j) →
      SessionMap.value (createView session (e, m)).2.sessionMap v =
        SessionMap.value m.sessionMap v) := by
  obtain ⟨-, h2, h3, h4, h5⟩ := createViewLoop_spec session
    (withDefaultContainer m.viewSplitter).activeIndex
    (withDefaultContainer m.viewSplitter).containers 0 e m.sessionMap
  refine ⟨?_, ?_, ?_, rfl, ?_, ?_, ?_⟩
  · intro hne
    have : m.viewSplitter.containers.length ≠ 0 := fun h => hne (List.length_eq_zero.mp h)
    simp [withDefaultContainer, this]
  · intro hnil
    simp [withDefaultContainer, hnil, ViewSplitter.addContainer, createContainer]
  · rw [createView_containers]; exact h2
  · intro j c hj
    have hlt : j < (withDefaultContainer m.viewSplitter).containers.length :=
      (List.getElem?_eq_some.mp hj).1
    refine ⟨_, by rw [createView_containers]; exact h3 j c hj, ?_, ?_, ?_, ?_⟩
    · split <;> simp [ViewContainer.addView, ViewContainer.setActiveView]
    · intro hact
      simp [hact, ViewContainer.setActiveView]
    · intro hmem
      have hlt2 : e.next + 2 * j < e.next := hviews _ hmem
      omega
    · rw [createView_sessionMap]; exact h4 j hlt
  · intro v hv
    rw [createView_sessionMap]
    exact h5 v (hviews v hv)
  · intro v hv
    rw [createView_sessionMap]
    exact createViewLoop_value_other session _ _ 0 e m.sessionMap v hv

/-- Session broadcast at a concrete state: session 9 is broadcast into the two
containers of a manager. -/
theorem createView_broadcast_example :
    (createView 9 twoContainers).2.viewSplitter.containers.length = 2 ∧
    (∃ c', (createView 9 twoContainers).2.viewSplitter.containers[1]? = some c' ∧
      c'.items = [(2, 3)] ++ [(4 + 2 * 1, 4 + 2 * 1 + 1)] ∧
      (1 = 0 → c'.active = some (4 + 2 * 1)) ∧
      4 + 2 * 1 ∉ twoContainers.2.liveViews ∧
      SessionMap.value (createView 9 twoContainers).2.sessionMap (4 + 2 * 1)
        = some (some 9)) :=
  ⟨(createView_broadcast 9 twoContainers.1 twoContainers.2 (by decide)).2.2.1,
    (createView_broadcast 9 twoContainers.1 twoContainers.2 (by decide)).2.2.2.2.1
      1 ⟨[(2, 3)], some 2⟩ (by decide)⟩

/-- C4: view 0, mapped to session 7, was closed; the close request destroyed it and
left its entry in the map (no `_sessionMap.remove` on line 322).  When `new` hands
out the freed address 0 again, `createView(8)` puts the new view 0 into the container
and line 277 overwrites the entry that existed: it sent 0 to session 7 and now sends
it to session 8, so the view is not one without entry before and an existing entry
has changed.  With the allocator left where the close request left it, the new view
is 2 and the entry of the destroyed view stays in the map. -/
theorem createView_overwrites_stale_entry :
    reusedAddress.2 = (viewCloseRequest 0 oneView).2 ∧
    reusedAddress.2.liveViews = [] ∧
    SessionMap.value reusedAddress.2.sessionMap 0 = some (some 7) ∧
    (createView 8 reusedAddress).2.viewSplitter.containers.map ViewContainer.views
      = [[0]] ∧
    SessionMap.value (createView 8 reusedAddress).2.sessionMap 0 = some (some 8) ∧
    (createView 8 reusedAddress).2.sessionMap = [(0, some 8)] ∧
    (createView 8 (viewCloseRequest 0 oneView)).2.sessionMap
      = [(2, some 8), (0, some 7)] := by
  decide

/-! ## Splitting -/

theorem map_range_succ (f : Nat → Nat) (n : Nat) :
    (List.range (n + 1)).map f = f 0 :: (List.range n).map (fun j => f (j + 1)) := by
  rw [List.range_succ_eq_map, List.map_cons, List.map_map]
  rfl

theorem splitViewLoop_spec : ∀ (vs : List View) (e : Env) (map : SessionMap)
    (c : ViewContainer),
    (∀ v ∈ vs, ∃ s : Session, SessionMap.value map v = some (some s)) →
    (∀ v ∈ vs, v < e.next) →
    ∃ e' map' c', splitViewLoop vs (e, map, c) = some (e', map', c') ∧
      e'.next = e.next + 2 * vs.length ∧
      c'.views = c.views ++ (List.range vs.length).map (fun j => e.next + 2 * j) ∧
      (∀ (j : Nat) (v : View), vs[j]? = some v →
        SessionMap.value map' (e.next + 2 * j) = SessionMap.value map v) ∧
      (∀ v, v < e.next → SessionMap.value map' v = SessionMap.value map v) := by
  intro vs
  induction vs with
  | nil =>
    intro e map c _ _
    exact ⟨e, map, c, rfl, by simp, by simp, by simp, fun _ _ => rfl⟩
  | cons v rest ih =>
    intro e map c hmapped hlt
    obtain ⟨s, hs⟩ := hmapped v (List.mem_cons_self _ _)
    have hvlt : v < e.next := hlt v (List.mem_cons_self _ _)
    have step : splitViewLoop (v :: rest) (e, map, c) =
        splitViewLoop rest
          (⟨e.next + 1 + 1, e.sessionViews ++ [(s, e.next)], e.closed⟩,
            SessionMap.insert map e.next (some s), c.addView e.next (e.next + 1)) := by
      simp [splitViewLoop, SessionMap.index_of_value hs, loadViewSettings,
        createTerminalDisplay, createController, Env.alloc, Env.addView]
    have hval : ∀ w : Nat, w < e.next →
        SessionMap.value (SessionMap.insert map e.next (some s)) w = SessionMap.value map w := by
      intro w hw
      rw [SessionMap.value_insert]
      have : w ≠ e.next := by omega
      simp [this]
    obtain ⟨e', map', c', hrun, hnext, hviews, hnew, hold⟩ := ih
      ⟨e.next + 1 + 1, e.sessionViews ++ [(s, e.next)], e.closed⟩
      (SessionMap.insert map e.next (some s)) (c.addView e.next (e.next + 1))
      (by
        intro w hw
        obtain ⟨t, ht⟩ := hmapped w (List.mem_cons_of_mem _ hw)
        exact ⟨t, by rw [hval w (hlt w (List.mem_cons_of_mem _ hw)), ht]⟩)
      (by
        intro w hw
        exact Nat.lt_succ_of_lt (Nat.lt_succ_of_lt (hlt w (List.mem_cons_of_mem _ hw))))
    simp only at hnext hviews hnew hold
    refine ⟨e', map', c', by rw [step, hrun], ?_, ?_, ?_, ?_⟩
    · rw [hnext, List.length_cons]; omega
    · rw [hviews, List.length_cons, map_range_succ]
      simp only [ViewContainer.views, ViewContainer.addView, List.map_append, List.map_cons,
        List.map_nil, List.append_assoc, List.singleton_append, Nat.mul_zero, Nat.add_zero]
      congr 2
      apply List.map_congr_left
      intro j _
      show (e.next + 1 + 1 + 2 * j : Nat) = e.next + 2 * (j + 1)
      omega
    · intro j w hj
      cases j with
      | zero =>
        simp only [List.getElem?_cons_zero, Option.some.injEq] at hj
        subst hj
        have h0 := hold e.next (by omega)
        rw [SessionMap.value_insert] at h0
        simpa [hs] using h0
      | succ j =>
        simp only [List.getElem?_cons_succ] at hj
        have hw : w ∈ rest := List.getElem?_mem hj
        have h1 : e.next + 2 * (j + 1) = e.next + 1 + 1 + 2 * j := by omega
        rw [h1, hnew j w hj]
        exact hval w (hlt w (List.mem_cons_of_mem _ hw))
    · intro w hw
      rw [hold w (by omega)]
      exact hval w hw

theorem splitViewLoop_value_other : ∀ (vs : List View) (e : Env) (map : SessionMap)
    (c : ViewContainer) (r : Env × SessionMap × ViewContainer),
    splitViewLoop vs (e, map, c) = some r →
    ∀ v : View, (∀ j : Nat, j < vs.length → v ≠ e.next + 2 * j) →
      SessionMap.value r.2.1 v = SessionMap.value map v := by
  intro vs
  induction vs with
  | nil =>
    intro e map c r hrun v _
    simp only [splitViewLoop, Option.some.injEq] at hrun
    rw [← hrun]
  | cons u rest ih =>
    intro e map c r hrun v hv
    cases hval : SessionMap.value map u with
    | none =>
      simp [splitViewLoop, SessionMap.index_of_none hval, loadViewSettings] at hrun
    | some x =>
      cases x with
      | none =>
        simp [splitViewLoop, SessionMap.index_of_value hval, loadViewSettings] at hrun
      | some s =>
        have step : splitViewLoop (u :: rest) (e, map, c) =
            splitViewLoop rest
              (⟨e.next + 1 + 1, e.sessionViews ++ [(s, e.next)], e.closed⟩,
                SessionMap.insert map e.next (some s), c.addView e.next (e.next + 1)) := by
          simp [splitViewLoop, SessionMap.index_of_value hval, loadViewSettings,
            createTerminalDisplay, createController, Env.alloc, Env.addView]
        rw [step] at hrun
        rw [ih _ _ _ r hrun v, SessionMap.value_insert]
        · have h0 : v ≠ e.next := by
            have := hv 0 (Nat.succ_pos _)
            simpa using this
          simp [h0]
        · intro j hj heq
          apply hv (j + 1) (Nat.succ_lt_succ hj)
          rw [heq]
          show (e.next + 1 + 1 + 2 * j : Nat) = e.next + 2 * (j + 1)
          omega

theorem splitViewBranch_true {e : Env} {m : ViewManager} {ac : ViewContainer}
    {e' : Env} {map' : SessionMap} {nc : ViewContainer}
    (hac : m.viewSplitter.activeContainer = some ac)
    (hloop : splitViewLoop ac.views (e, m.sessionMap, createContainer) = some (e', map', nc)) :
    splitViewBranch true (e, m) = some (e', { m with
      sessionMap := map'
      viewSplitter := m.viewSplitter.addContainer nc }) := by
  simp [splitViewBranch, hac, hloop]

theorem activeContainer_addContainer {sp : ViewSplitter} {ac : ViewContainer}
    (hac : sp.activeContainer = some ac) (nc : ViewContainer) :
    (sp.addContainer nc).activeContainer = some ac := by
  unfold ViewSplitter.activeContainer at hac ⊢
  have hlt : sp.activeIndex < sp.containers.length := (List.getElem?_eq_some.mp hac).1
  have hne : sp.containers ≠ [] := by
    intro h
    rw [h] at hlt
    exact absurd hlt (Nat.not_lt_zero _)
  simp only [ViewSplitter.addContainer, hne, if_false]
  rw [List.getElem?_append_left hlt]
  exact hac

/-- Symmetry after split: in a manager state whose views held by containers lie below
the position of the allocator and whose active container `ac` holds views that all
have a map entry to a session, the `splitView(true)` branch (lines 203-225) adds
exactly one new container at the end and leaves the active container active; the new
container holds one new view per view of `ac`, in the same order, namely the handles
`e.next + 2 * j`, pairwise different and held by no container before; the map sends
the `j`-th new view to the session of the `j`-th view of `ac`, so both containers
show the same sessions in the same order; the containers that existed, the map entry
of every view held by a container and every map entry whose key is none of the new
handles are unchanged.  When `ac` has an active view, the whole call
`splitView(true)` returns this state; when it has none, the final focus statement
(line 239) dereferences a null pointer and the call has no result. -/
theorem splitView_symmetry (e : Env) (m : ViewManager) (ac : ViewContainer)
    (hac : m.viewSplitter.activeContainer = some ac)
    (hmapped : ∀ v ∈ ac.views, ∃ s : Session, SessionMap.value m.sessionMap v = some (some s))
    (hviews : ∀ v ∈ m.liveViews, v < e.next) :
    ∃ (e' : Env) (m' : ViewManager) (nc : ViewContainer),
      splitViewBranch true (e, m) = some (e', m') ∧
      (ac.activeView ≠ none → splitView true (e, m) = some (e', m')) ∧
      (ac.activeView = none → splitView true (e, m) = none) ∧
      m'.viewSplitter.containers = m.viewSplitter.containers ++ [nc] ∧
      m'.viewSplitter.activeContainer = some ac ∧
      nc.views = (List.range ac.views.length).map (fun j => e.next + 2 * j) ∧
      nc.views.length = ac.views.length ∧
      nc.views.Nodup ∧
      (∀ w ∈ nc.views, w ∉ m.liveViews) ∧
      (∀ (j : Nat) (v : View), ac.views[j]? = some v →
        SessionMap.value m'.sessionMap (e.next + 2 * j) = SessionMap.value m.sessionMap v) ∧
      nc.views.map (SessionMap.value m'.sessionMap) =
        ac.views.map (SessionMap.value m.sessionMap) ∧
      (∀ v ∈ m.liveViews,
        SessionMap.value m'.sessionMap v = SessionMap.value m.sessionMap v) ∧
      (∀ v : View, (∀ j : Nat, j < ac.views.length → v ≠ e.next + 2 * j) →
        SessionMap.value m'.sessionMap v = SessionMap.value m.sessionMap v) := by
  have hsub : ∀ v ∈ ac.views, v ∈ m.liveViews := by
    intro v hv
    exact mem_allViews.mpr ⟨ac, List.getElem?_mem hac, hv⟩
  obtain ⟨e', map', nc, hloop, -, hncviews, hnew, hold⟩ :=
    splitViewLoop_spec ac.views e m.sessionMap createContainer hmapped
      (fun v hv => hviews v (hsub v hv))
  have hbranch := splitViewBranch_true hac hloop
  have hnc : nc.views = (List.range ac.views.length).map (fun j => e.next + 2 * j) := by
    simpa [createContainer, ViewContainer.empty, ViewContainer.views] using hncviews
  have hact := activeContainer_addContainer hac nc
  refine ⟨e', _, nc, hbranch, ?_, ?_, rfl, hact, hnc, ?_, ?_, ?_, hnew, ?_, ?_, ?_⟩
  · intro hav
    unfold splitView
    rw [hbranch]
    simp only [Option.bind, splitViewFocus, hact]
    cases hv : ac.activeView with
    | none => exact absurd hv hav
    | some a => rfl
  · intro hav
    unfold splitView
    rw [hbranch]
    simp only [Option.bind, splitViewFocus, hact, hav]
  · rw [hnc]; simp
  · rw [hnc]
    apply List.Nodup.map _ (List.nodup_range _)
    intro a b hab
    have hab2 : (e.next + 2 * a : Nat) = e.next + 2 * b := hab
    omega
  · intro w hw
    rw [hnc] at hw
    simp only [List.mem_map, List.mem_range] at hw
    obtain ⟨j, -, rfl⟩ := hw
    intro hmem
    have hlt2 : e.next + 2 * j < e.next := hviews _ hmem
    omega
  · apply List.ext_getElem?
    intro j
    rw [List.getElem?_map, List.getElem?_map, hnc, List.getElem?_map]
    by_cases hj : j < ac.views.length
    · rw [List.getElem?_range hj]
      have hj' : ac.views[j]? = some (ac.views[j]) := List.getElem?_eq_getElem hj
      rw [hj']
      simp only [Option.map_some']
      rw [hnew j _ hj']
    · have h1 : (List.range ac.views.length)[j]? = none :=
        List.getElem?_eq_none (by simpa using hj)
      have h2 : ac.views[j]? = none := List.getElem?_eq_none (by simpa using hj)
      rw [h1, h2]
      rfl
  · intro v hv
    exact hold v (hviews v hv)
  · intro v hv
    exact splitViewLoop_value_other ac.views e m.sessionMap createContainer (e', map', nc)
      hloop v hv

/-- Symmetry after split at a concrete state: the active container shows sessions 7
and 8 in views 0 and 2; the new container shows them in the new views 4 and 6. -/
theorem splitView_symmetry_example :
    ∃ (e' : Env) (m' : ViewManager) (nc : ViewContainer),
      splitView true twoViews = some (e', m') ∧
      m'.viewSplitter.containers = twoViews.2.viewSplitter.containers ++ [nc] ∧
      nc.views = [4, 6] ∧
      nc.views.map (SessionMap.value m'.sessionMap) = [some (some 7), some (some 8)] := by
  obtain ⟨e', m', nc, -, hs, -, hc, -, hv, -, -, -, -, hm, -, -⟩ :=
    splitView_symmetry twoViews.1 twoViews.2 ⟨[(0, 1), (2, 3)], some 2⟩ (by decide)
      (by
        intro v hv
        simp only [ViewContainer.views, List.map_cons, List.map_nil, List.mem_cons,
          List.mem_singleton, List.not_mem_nil, or_false] at hv
        rcases hv with rfl | rfl
        · exact ⟨7, rfl⟩
        · exact ⟨8, rfl⟩)
      (by decide)
  exact ⟨e', m', nc, hs (by decide), hc, hv, hm⟩

/-- C3: the manager has one container, left empty by `detachActiveView`; its active
container displays no view, so the claim asks `splitView(true)` for one new, empty
container.  The branch of lines 203-225 adds it (two containers, both empty), then
the call dereferences the null active view on line 239 and has no result. -/
theorem splitView_empty_container_no_result :
    emptied.2.viewSplitter.containers = [⟨[], none⟩] ∧
    (splitViewBranch true emptied).map
        (fun w => w.2.viewSplitter.containers.map ViewContainer.views) = some [[], []] ∧
    splitView true emptied = none := by
  decide

/-! ## Merging -/

theorem getElem?_modifyAt {α : Type} (f : α → α) (i j : Nat) (l : List α) :
    (modifyAt f i l)[j]? = if j = i then l[j]?.map f else l[j]? := by
  induction l generalizing i j with
  | nil => cases i <;> simp [modifyAt]
  | cons a l ih =>
    cases i with
    | zero =>
      cases j with
      | zero => simp [modifyAt]
      | succ j => simp [modifyAt]
    | succ i =>
      cases j with
      | zero => simp [modifyAt]
      | succ j => simp [modifyAt, ih]

theorem modifyAt_modifyAt {α : Type} (f g : α → α) (i : Nat) (l : List α) :
    modifyAt g i (modifyAt f i l) = modifyAt (fun c => g (f c)) i l := by
  induction l generalizing i with
  | nil => cases i <;> rfl
  | cons a l ih =>
    cases i with
    | zero => rfl
    | succ i => simp [modifyAt, ih]

theorem activeContainer_modifyActive {sp : ViewSplitter} {c : ViewContainer}
    (h : sp.activeContainer = some c) (f : ViewContainer → ViewContainer) :
    (sp.modifyActive f).activeContainer = some (f c) := by
  unfold ViewSplitter.activeContainer at h ⊢
  simp [ViewSplitter.modifyActive, getElem?_modifyAt, h]

theorem addViews_items (c : ViewContainer) (ps : List (View × Controller)) :
    (addViews c ps).items = c.items ++ ps := by
  induction ps generalizing c with
  | nil => simp [addViews]
  | cons p ps ih =>
    have : addViews c (p :: ps) = addViews (c.addView p.1 p.2) ps := rfl
    rw [this, ih]
    simp [ViewContainer.addView]

theorem find?_filter_ne (ps : List (View × Controller)) (v w : View) (h : w ≠ v) :
    List.find? (fun p => decide (p.1 = w)) (List.filter (fun p => decide (p.1 ≠ v)) ps) =
      List.find? (fun p => decide (p.1 = w)) ps := by
  induction ps with
  | nil => rfl
  | cons p ps ih =>
    by_cases hp : p.1 = v
    · have hpw : ¬ p.1 = w := fun h' => h (h'.symm.trans hp)
      rw [List.filter_cons_of_neg (by simpa using hp), ih,
        List.find?_cons_of_neg _ (by simpa using hpw)]
    · rw [List.filter_cons_of_pos (by simpa using hp)]
      by_cases hpw : p.1 = w
      · rw [List.find?_cons_of_pos _ (by simpa using hpw),
          List.find?_cons_of_pos _ (by simpa using hpw)]
      · rw [List.find?_cons_of_neg _ (by simpa using hpw),
          List.find?_cons_of_neg _ (by simpa using hpw), ih]

theorem viewProperties_removeView (c : ViewContainer) (v w : View) (h : w ≠ v) :
    (c.removeView v).viewProperties w = c.viewProperties w := by
  unfold ViewContainer.viewProperties ViewContainer.removeView
  simp only
  rw [find?_filter_ne c.items v w h]

theorem viewProperties_of_nodup (items : List (View × Controller))
    (h : (items.map Prod.fst).Nodup) :
    ∀ p ∈ items, (ViewContainer.mk items none).viewProperties p.1 = some p.2 := by
  induction items with
  | nil => intro p hp; cases hp
  | cons q qs ih =>
    intro p hp
    have hq : q.1 ∉ qs.map Prod.fst := (List.nodup_cons.mp h).1
    rcases List.mem_cons.mp hp with rfl | hp
    · simp [ViewContainer.viewProperties]
    · have hne : ¬ q.1 = p.1 := by
        intro heq
        exact hq (heq ▸ List.mem_map_of_mem Prod.fst hp)
      have := ih (List.nodup_cons.mp h).2 p hp
      simp only [ViewContainer.viewProperties] at this ⊢
      simp [List.find?_cons, hne, this]

theorem takeView_step {self other : ViewManager} {sc oc : ViewContainer} {v : View}
    {p : Controller} (hs : self.viewSplitter.activeContainer = some sc)
    (ho : other.viewSplitter.activeContainer = some oc)
    (hp : oc.viewProperties v = some p) :
    takeView v (self, other) = some
      ({ self with
          viewSplitter := self.viewSplitter.modifyActive (fun c => c.addView v p)
          sessionMap := SessionMap.insert self.sessionMap v
            (SessionMap.index other.sessionMap v).1 },
        { other with
          viewSplitter := other.viewSplitter.modifyActive (fun c => c.removeView v)
          sessionMap := SessionMap.remove (SessionMap.index other.sessionMap v).2 v }) := by
  simp [takeView, hs, ho, hp]

theorem mergeLoop_spec : ∀ (ps : List (View × Controller)) (self other : ViewManager)
    (sc oc : ViewContainer),
    self.viewSplitter.activeContainer = some sc →
    other.viewSplitter.activeContainer = some oc →
    (ps.map Prod.fst).Nodup →
    (∀ p ∈ ps, oc.viewProperties p.1 = some p.2) →
    ∃ self' other', mergeLoop (ps.map Prod.fst) (self, other) = some (self', other') ∧
      self'.viewSplitter = self.viewSplitter.modifyActive (fun c => addViews c ps) ∧
      other'.viewSplitter =
        other.viewSplitter.modifyActive (fun c => removeViews c (ps.map Prod.fst)) ∧
      (∀ w, SessionMap.value self'.sessionMap w =
        if w ∈ ps.map Prod.fst then some ((SessionMap.value other.sessionMap w).getD none)
        else SessionMap.value self.sessionMap w) ∧
      (∀ w, SessionMap.value other'.sessionMap w =
        if w ∈ ps.map Prod.fst then none else SessionMap.value other.sessionMap w) := by
  intro ps
  induction ps with
  | nil =>
    intro self other sc oc _ _ _ _
    refine ⟨self, other, rfl, ?_, ?_, by simp, by simp⟩
    · cases self with
      | mk sp _ _ _ _ _ _ _ =>
        simp only [ViewSplitter.modifyActive, addViews, List.foldl_nil]
        have : modifyAt (fun c : ViewContainer => c) sp.activeIndex sp.containers
            = sp.containers := by
          generalize sp.activeIndex = i
          induction sp.containers generalizing i with
          | nil => cases i <;> rfl
          | cons a l ih => cases i <;> simp [modifyAt, ih]
        rw [this]
    · cases other with
      | mk sp _ _ _ _ _ _ _ =>
        simp only [ViewSplitter.modifyActive, removeViews, List.map_nil, List.foldl_nil]
        have : modifyAt (fun c : ViewContainer => c) sp.activeIndex sp.containers
            = sp.containers := by
          generalize sp.activeIndex = i
          induction sp.containers generalizing i with
          | nil => cases i <;> rfl
          | cons a l ih => cases i <;> simp [modifyAt, ih]
        rw [this]
  | cons q rest ih =>
    intro self other sc oc hs ho hnodup hprops
    have hq : q.1 ∉ rest.map Prod.fst := (List.nodup_cons.mp hnodup).1
    have hrest : (rest.map Prod.fst).Nodup := (List.nodup_cons.mp hnodup).2
    have hstep := takeView_step hs ho (hprops q (List.mem_cons_self _ _))
    obtain ⟨self', other', hrun, hsv, hov, hsm, hom⟩ := ih
      { self with
        viewSplitter := self.viewSplitter.modifyActive (fun c => c.addView q.1 q.2)
        sessionMap := SessionMap.insert self.sessionMap q.1
          (SessionMap.index other.sessionMap q.1).1 }
      { other with
        viewSplitter := other.viewSplitter.modifyActive (fun c => c.removeView q.1)
        sessionMap := SessionMap.remove (SessionMap.index other.sessionMap q.1).2 q.1 }
      (sc.addView q.1 q.2) (oc.removeView q.1)
      (activeContainer_modifyActive hs (fun c => c.addView q.1 q.2))
      (activeContainer_modifyActive ho (fun c => c.removeView q.1))
      hrest
      (by
        intro p hp
        have hne : p.1 ≠ q.1 := by
          intro heq
          exact hq (heq ▸ List.mem_map_of_mem Prod.fst hp)
        rw [viewProperties_removeView oc q.1 p.1 hne]
        exact hprops p (List.mem_cons_of_mem _ hp))
    refine ⟨self', other', ?_, ?_, ?_, ?_, ?_⟩
    · simp only [List.map_cons, mergeLoop, hstep, Option.bind]
      exact hrun
    · rw [hsv]
      simp only [ViewSplitter.modifyActive, modifyAt_modifyAt]
      rfl
    · rw [hov]
      simp only [ViewSplitter.modifyActive, modifyAt_modifyAt]
      rfl
    · intro w
      rw [hsm w]
      simp only [SessionMap.value_insert, SessionMap.value_remove, SessionMap.value_index,
        SessionMap.index_fst, List.map_cons, List.mem_cons]
      by_cases hw : w = q.1
      · subst hw; simp [hq]
      · simp only [hw, if_false, false_or]
    · intro w
      rw [hom w]
      simp only [SessionMap.value_remove, SessionMap.value_index, List.map_cons, List.mem_cons]
      by_cases hw : w = q.1
      · subst hw; simp
      · simp only [hw, if_false, false_or]

theorem viewProperties_of_views_nodup (c : ViewContainer) (h : c.views.Nodup) :
    ∀ p ∈ c.items, c.viewProperties p.1 = some p.2 := by
  intro p hp
  have := viewProperties_of_nodup c.items h p hp
  simpa [ViewContainer.viewProperties] using this

/-- C8 fails as stated: two `createView` calls for session 7 on a new manager leave
one container with the different views 0 and 2, both mapped to session 7; and a
manager that shows session 7 in view 0, after merging a manager that shows session 7
in view 10, holds both views in one container, both mapped to session 7. -/
theorem two_views_of_one_session :
    (run [.createView 7, .createView 7] (⟨0, [], []⟩, ViewManager.new)).map
        (fun w => (w.2.viewSplitter.containers.map ViewContainer.views,
          SessionMap.value w.2.sessionMap 0, SessionMap.value w.2.sessionMap 2))
      = some ([[0, 2]], some (some 7), some (some 7)) ∧
    (run [.createView 7, .merge
          { ViewManager.new with
            viewSplitter := ⟨[⟨[(10, 11)], some 10⟩], 0⟩
            sessionMap := [(10, some 7)] }] (⟨0, [], []⟩, ViewManager.new)).map
        (fun w => (w.2.viewSplitter.containers.map ViewContainer.views,
          SessionMap.value w.2.sessionMap 0, SessionMap.value w.2.sessionMap 10))
      = some ([[0, 10]], some (some 7), some (some 7)) := by
  decide

theorem Shrinks.refl (w : World) : Shrinks w w :=
  ⟨rfl, fun c hc => ⟨c, hc, List.Sublist.refl _⟩, fun _ _ h => h⟩

theorem Shrinks.trans {w1 w2 w3 : World} (h12 : Shrinks w1 w2) (h23 : Shrinks w2 w3) :
    Shrinks w1 w3 := by
  obtain ⟨n12, c12, m12⟩ := h12
  obtain ⟨n23, c23, m23⟩ := h23
  refine ⟨n23.trans n12, ?_, fun v s h => m12 v s (m23 v s h)⟩
  intro c3 hc3
  obtain ⟨c2, hc2, s32⟩ := c23 c3 hc3
  obtain ⟨c1, hc1, s21⟩ := c12 c2 hc2
  exact ⟨c1, hc1, s32.trans s21⟩

theorem Shrinks.preserves {w w' : World} (h : Shrinks w w') (hinv : Inv w) : Inv w' := by
  obtain ⟨hn, hc, hm⟩ := h
  obtain ⟨i1, i2, i3⟩ := hinv
  refine ⟨?_, ?_, ?_⟩
  · intro c' hc' v hv u hu s hvs hus
    obtain ⟨c, hcmem, hsub⟩ := hc c' hc'
    exact i1 c hcmem v (hsub.mem hv) u (hsub.mem hu) s (hm v s hvs) (hm u s hus)
  · intro c' hc'
    obtain ⟨c, hcmem, hsub⟩ := hc c' hc'
    exact hsub.nodup (i2 c hcmem)
  · intro v hv
    obtain ⟨c', hc', hvc⟩ := mem_allViews.mp hv
    obtain ⟨c, hcmem, hsub⟩ := hc c' hc'
    rw [hn]
    exact i3 v (mem_allViews.mpr ⟨c, hcmem, hsub.mem hvc⟩)

theorem removeView_views_sublist (c : ViewContainer) (v : View) :
    (c.removeView v).views.Sublist c.views :=
  (List.filter_sublist c.items).map Prod.fst

theorem mem_modifyAt {α : Type} {f : α → α} {i : Nat} {l : List α} {x : α}
    (h : x ∈ modifyAt f i l) : x ∈ l ∨ ∃ y ∈ l, x = f y := by
  induction l generalizing i with
  | nil => cases i <;> simp [modifyAt] at h
  | cons a l ih =>
    cases i with
    | zero =>
      simp only [modifyAt, List.mem_cons] at h
      rcases h with h | h
      · exact Or.inr ⟨a, List.mem_cons_self _ _, h⟩
      · exact Or.inl (List.mem_cons_of_mem _ h)
    | succ i =>
      simp only [modifyAt, List.mem_cons] at h
      rcases h with h | h
      · exact Or.inl (h ▸ List.mem_cons_self _ _)
      · rcases ih h with h1 | ⟨y, hy, hxy⟩
        · exact Or.inl (List.mem_cons_of_mem _ h1)
        · exact Or.inr ⟨y, List.mem_cons_of_mem _ hy, hxy⟩

theorem foldl_viewDestroyed_next (vs : List View) (e : Env) :
    (vs.foldl (fun e v => e.viewDestroyed v) e).next = e.next := by
  induction vs generalizing e with
  | nil => rfl
  | cons v vs ih =>
    rw [List.foldl_cons, ih]
    rfl

theorem destroyActiveContainer_next (e : Env) (sp : ViewSplitter) :
    (destroyActiveContainer e sp).1.next = e.next := by
  unfold destroyActiveContainer
  cases sp.activeContainer with
  | none => rfl
  | some c => exact foldl_viewDestroyed_next _ _

theorem destroyActiveContainer_mem (e : Env) (sp : ViewSplitter) {c : ViewContainer}
    (h : c ∈ (destroyActiveContainer e sp).2.containers) : c ∈ sp.containers := by
  unfold destroyActiveContainer at h
  cases hac : sp.activeContainer with
  | none => simpa [hac] using h
  | some ac =>
    simp only [hac, ViewSplitter.deleteActive] at h
    exact List.mem_of_mem_eraseIdx h

theorem splitViewBranch_false_shrinks {w w' : World}
    (h : splitViewBranch false w = some w') : Shrinks w w' := by
  obtain ⟨e, m⟩ := w
  unfold splitViewBranch at h
  simp only [Bool.false_eq_true, if_false] at h
  split at h
  · cases h
    refine ⟨destroyActiveContainer_next e m.viewSplitter, ?_, fun _ _ hv => hv⟩
    intro c' hc'
    exact ⟨c', destroyActiveContainer_mem e m.viewSplitter hc', List.Sublist.refl _⟩
  · cases h
    exact Shrinks.refl _

theorem splitView_false_shrinks {w w' : World} (h : splitView false w = some w') :
    Shrinks w w' := by
  unfold splitView at h
  cases hb : splitViewBranch false w with
  | none => simp [hb] at h
  | some w1 =>
    rw [hb] at h
    have := splitViewFocus_some h
    subst this
    exact splitViewBranch_false_shrinks hb

theorem uncheckSplitView_shrinks {w w' : World} (h : uncheckSplitView w = some w') :
    Shrinks w w' := by
  unfold uncheckSplitView at h
  split at h
  · have h1 : Shrinks w (w.1, { w.2 with splitViewChecked := false }) :=
      ⟨rfl, fun c hc => ⟨c, hc, List.Sublist.refl _⟩, fun _ _ hv => hv⟩
    exact h1.trans (splitView_false_shrinks h)
  · cases h
    exact Shrinks.refl _

theorem detachActiveView_shrinks {w w' : World} (h : detachActiveView w = some w') :
    Shrinks w w' := by
  obtain ⟨e, m⟩ := w
  unfold detachActiveView at h
  simp only at h
  split at h
  · cases h
  · split at h
    · cases h
      exact Shrinks.refl _
    · rename_i activeView _
      have hbase : Shrinks (e, m)
          ((destroyView activeView e
              (m.viewSplitter.modifyActive (fun c => c.removeView activeView))).1,
            { m with
              sessionMap := SessionMap.remove
                (SessionMap.index m.sessionMap activeView).2 activeView
              viewSplitter := (destroyView activeView e
                (m.viewSplitter.modifyActive (fun c => c.removeView activeView))).2
              viewDetached := m.viewDetached ++
                [(SessionMap.index m.sessionMap activeView).1] }) := by
        refine ⟨rfl, ?_, ?_⟩
        · intro c' hc'
          simp only [destroyView, ViewSplitter.dropView, ViewSplitter.modifyActive,
            List.mem_map] at hc'
          obtain ⟨x, hx, rfl⟩ := hc'
          rcases mem_modifyAt hx with hx | ⟨y, hy, rfl⟩
          · exact ⟨x, hx, removeView_views_sublist _ _⟩
          · exact ⟨y, hy,
              (removeView_views_sublist _ _).trans (removeView_views_sublist _ _)⟩
        · intro u s hu
          simp only [SessionMap.value_remove, SessionMap.value_index] at hu
          by_cases huv : u = activeView
          · simp [huv] at hu
          · simpa [huv] using hu
      split at h
      · have h2 : Shrinks
            ((destroyView activeView e
                (m.viewSplitter.modifyActive (fun c => c.removeView activeView))).1,
              { m with
                sessionMap := SessionMap.remove
                  (SessionMap.index m.sessionMap activeView).2 activeView
                viewSplitter := (destroyView activeView e
                  (m.viewSplitter.modifyActive (fun c => c.removeView activeView))).2
                viewDetached := m.viewDetached ++
                  [(SessionMap.index m.sessionMap activeView).1] })
            ((destroyActiveContainer
                (destroyView activeView e
                  (m.viewSplitter.modifyActive (fun c => c.removeView activeView))).1
                (destroyView activeView e
                  (m.viewSplitter.modifyActive (fun c => c.removeView activeView))).2).1,
              { m with
                sessionMap := SessionMap.remove
                  (SessionMap.index m.sessionMap activeView).2 activeView
                viewSplitter := (destroyActiveContainer
                  (destroyView activeView e
                    (m.viewSplitter.modifyActive (fun c => c.removeView activeView))).1
                  (destroyView activeView e
                    (m.viewSplitter.modifyActive (fun c => c.removeView activeView))).2).2
                viewDetached := m.viewDetached ++
                  [(SessionMap.index m.sessionMap activeView).1] }) := by
          refine ⟨destroyActiveContainer_next _ _, ?_, fun _ _ hv => hv⟩
          intro c' hc'
          exact ⟨c', destroyActiveContainer_mem _ _ hc', List.Sublist.refl _⟩
        exact (hbase.trans h2).trans (uncheckSplitView_shrinks h)
      · cases h
        exact hbase

theorem sessionFinishedLoop_next (session : Session) (L : List View) (e : Env)
    (sp : ViewSplitter) (map : SessionMap) :
    (sessionFinishedLoop session L (e, sp, map)).1.next = e.next := by
  induction L generalizing e sp map with
  | nil => rfl
  | cons v rest ih =>
    unfold sessionFinishedLoop
    simp only
    split
    · rw [ih]; rfl
    · rw [ih]

theorem sessionFinished_shrinks (session : Session) (w : World) :
    Shrinks w (sessionFinished session w) := by
  obtain ⟨e, m⟩ := w
  obtain ⟨h1, h2⟩ := sessionFinishedLoop_spec session m.viewSplitter.findChildren
    (List.nodup_dedup _) e m.viewSplitter m.sessionMap
  refine ⟨sessionFinishedLoop_next session _ e _ _, ?_, ?_⟩
  · intro c' hc'
    rw [sessionFinished_splitter] at hc'
    have hmem : c'.items ∈ (sessionFinishedLoop session m.viewSplitter.findChildren
        (e, m.viewSplitter, m.sessionMap)).2.1.containers.map ViewContainer.items :=
      List.mem_map_of_mem _ hc'
    rw [h1, List.mem_map] at hmem
    obtain ⟨c, hc, hitems⟩ := hmem
    refine ⟨c, hc, ?_⟩
    show (c'.items.map Prod.fst).Sublist (c.items.map Prod.fst)
    rw [← hitems]
    exact (List.filter_sublist c.items).map Prod.fst
  · intro v s hv
    rw [sessionFinished_sessionMap, h2 v] at hv
    split at hv
    · split at hv
      · cases hv
      · simp only [Option.some.injEq] at hv
        exact (getD_eq_some_iff _ _).mp hv
    · exact hv

theorem viewCloseRequest_shrinks (view : View) (w : World) :
    Shrinks w (viewCloseRequest view w) := by
  obtain ⟨e, m⟩ := w
  cases hval : SessionMap.value m.sessionMap view with
  | none =>
    have hr : viewCloseRequest view (e, m) =
        (e, { m with sessionMap := SessionMap.insert m.sessionMap view none }) := by
      simp [viewCloseRequest, SessionMap.index_of_none hval]
    rw [hr]
    refine ⟨rfl, fun c hc => ⟨c, hc, List.Sublist.refl _⟩, ?_⟩
    intro u s hu
    simp only [SessionMap.value_insert] at hu
    by_cases huv : u = view
    · simp [huv] at hu
    · simpa [huv] using hu
  | some x =>
    cases x with
    | none =>
      have hr : viewCloseRequest view (e, m) = (e, m) := by
        simp [viewCloseRequest, SessionMap.index_of_value hval]
      rw [hr]
      exact Shrinks.refl _
    | some s =>
      have hr : viewCloseRequest view (e, m) =
          ((if ((e.viewDestroyed view).views s).length = 0
              then (e.viewDestroyed view).closeSession s else e.viewDestroyed view),
            { m with viewSplitter := m.viewSplitter.dropView view }) := by
        simp [viewCloseRequest, SessionMap.index_of_value hval, destroyView]
      rw [hr]
      refine ⟨?_, ?_, fun _ _ hv => hv⟩
      · simp only
        split <;> rfl
      · intro c' hc'
        simp only [ViewSplitter.dropView, List.mem_map] at hc'
        obtain ⟨c, hc, rfl⟩ := hc'
        exact ⟨c, hc, removeView_views_sublist _ _⟩

theorem withDefaultContainer_mem {sp : ViewSplitter} {c : ViewContainer}
    (h : c ∈ (withDefaultContainer sp).containers) : c ∈ sp.containers ∨ c.views = [] := by
  unfold withDefaultContainer at h
  split at h
  · rename_i hlen
    have hnil : sp.containers = [] := List.length_eq_zero.mp hlen
    simp only [ViewSplitter.addContainer, hnil, List.nil_append, List.mem_singleton] at h
    exact Or.inr (h ▸ rfl)
  · exact Or.inl h

theorem addView_views (c : ViewContainer) (v : View) (p : Controller) :
    (c.addView v p).views = c.views ++ [v] := by
  simp [ViewContainer.addView, ViewContainer.views]

theorem createView_mem {session : Session} {e : Env} {m : ViewManager} {c' : ViewContainer}
    (h : c' ∈ (createView session (e, m)).2.viewSplitter.containers) :
    ∃ (j : Nat) (c : ViewContainer), (c ∈ m.viewSplitter.containers ∨ c.views = []) ∧
      j < (withDefaultContainer m.viewSplitter).containers.length ∧
      c'.views = c.views ++ [e.next + 2 * j] := by
  obtain ⟨-, h2, h3, -, -⟩ := createViewLoop_spec session
    (withDefaultContainer m.viewSplitter).activeIndex
    (withDefaultContainer m.viewSplitter).containers 0 e m.sessionMap
  rw [createView_containers] at h
  obtain ⟨j, hj⟩ := List.mem_iff_getElem?.mp h
  have hlt : j < (withDefaultContainer m.viewSplitter).containers.length := by
    have := (List.getElem?_eq_some.mp hj).1
    rw [h2] at this
    exact this
  have hc : (withDefaultContainer m.viewSplitter).containers[j]? =
      some ((withDefaultContainer m.viewSplitter).containers[j]) :=
    List.getElem?_eq_getElem hlt
  have h3j := h3 j _ hc
  rw [hj, Option.some.injEq] at h3j
  refine ⟨j, _, withDefaultContainer_mem (List.getElem?_mem hc), hlt, ?_⟩
  rw [h3j]
  split
  · exact addView_views _ _ _
  · exact addView_views _ _ _

theorem createView_inv (session : Session) (w : World) (hinv : Inv w)
    (hadm : ∀ v ∈ w.2.liveViews, SessionMap.value w.2.sessionMap v ≠ some (some session)) :
    Inv (createView session w) := by
  obtain ⟨e, m⟩ := w
  obtain ⟨i1, i2, i3⟩ := hinv
  simp only at i1 i2 i3 hadm
  obtain ⟨-, -, -, h4, h5⟩ := createViewLoop_spec session
    (withDefaultContainer m.viewSplitter).activeIndex
    (withDefaultContainer m.viewSplitter).containers 0 e m.sessionMap
  have hlive : ∀ (c : ViewContainer), (c ∈ m.viewSplitter.containers ∨ c.views = []) →
      ∀ v ∈ c.views, v ∈ m.liveViews := by
    intro c hc v hv
    rcases hc with hc | hc
    · exact mem_allViews.mpr ⟨c, hc, hv⟩
    · rw [hc] at hv; cases hv
  have hold : ∀ v ∈ m.liveViews,
      SessionMap.value (createView session (e, m)).2.sessionMap v =
        SessionMap.value m.sessionMap v := by
    intro v hv
    rw [createView_sessionMap]
    exact h5 v (i3 v hv)
  have hnew : ∀ j : Nat, j < (withDefaultContainer m.viewSplitter).containers.length →
      SessionMap.value (createView session (e, m)).2.sessionMap (e.next + 2 * j) =
        some (some session) := by
    intro j hj
    rw [createView_sessionMap]
    exact h4 j hj
  have hfresh : ∀ (j : Nat), e.next + 2 * j ∉ m.liveViews := by
    intro j hmem
    have hlt : e.next + 2 * j < e.next := i3 _ hmem
    omega
  refine ⟨?_, ?_, ?_⟩
  · intro c' hc' v hv u hu t hvt hut
    obtain ⟨j, c, hc, hj, hviews⟩ := createView_mem hc'
    rw [hviews] at hv hu
    simp only [List.mem_append, List.mem_singleton] at hv hu
    rcases hv with hv | hv <;> rcases hu with hu | hu
    · have hvl := hlive c hc v hv
      have hul := hlive c hc u hu
      rw [hold v hvl] at hvt
      rw [hold u hul] at hut
      rcases hc with hc | hc
      · exact i1 c hc v hv u hu t hvt hut
      · rw [hc] at hv; cases hv
    · have hvl := hlive c hc v hv
      rw [hold v hvl] at hvt
      rw [hu, hnew j hj] at hut
      simp only [Option.some.injEq] at hut
      rw [← hut] at hvt
      exact absurd hvt (hadm v hvl)
    · have hul := hlive c hc u hu
      rw [hold u hul] at hut
      rw [hv, hnew j hj] at hvt
      simp only [Option.some.injEq] at hvt
      rw [← hvt] at hut
      exact absurd hut (hadm u hul)
    · rw [hv, hu]
  · intro c' hc'
    obtain ⟨j, c, hc, hj, hviews⟩ := createView_mem hc'
    rw [hviews]
    apply List.Nodup.append
    · rcases hc with hc | hc
      · exact i2 c hc
      · rw [hc]; exact List.nodup_nil
    · exact List.nodup_singleton _
    · intro v hv hv2
      rw [List.mem_singleton] at hv2
      exact hfresh j (hv2 ▸ hlive c hc v hv)
  · intro v hv
    obtain ⟨c', hc', hvc⟩ := mem_allViews.mp hv
    obtain ⟨j, c, hc, hj, hviews⟩ := createView_mem hc'
    rw [hviews] at hvc
    simp only [List.mem_append, List.mem_singleton] at hvc
    show v < (createView session (e, m)).1.next
    rw [createView_next]
    rcases hvc with hvc | hvc
    · have hlt : v < e.next := i3 v (hlive c hc v hvc)
      exact Nat.lt_of_lt_of_le hlt (Nat.le_add_right _ _)
    · rw [hvc]
      show (e.next + 2 * j : Nat) <
        e.next + 2 * (withDefaultContainer m.viewSplitter).containers.length
      omega

theorem splitViewLoop_some_mapped : ∀ (vs : List View) (e : Env) (map : SessionMap)
    (c : ViewContainer) (r : Env × SessionMap × ViewContainer),
    (∀ v ∈ vs, v < e.next) → splitViewLoop vs (e, map, c) = some r →
    ∀ v ∈ vs, ∃ s : Session, SessionMap.value map v = some (some s) := by
  intro vs
  induction vs with
  | nil => intro e map c r _ _ v hv; cases hv
  | cons v rest ih =>
    intro e map c r hlt hrun
    cases hval : SessionMap.value map v with
    | none =>
      simp [splitViewLoop, SessionMap.index_of_none hval, loadViewSettings] at hrun
    | some x =>
      cases x with
      | none =>
        simp [splitViewLoop, SessionMap.index_of_value hval, loadViewSettings] at hrun
      | some s =>
        have step : splitViewLoop (v :: rest) (e, map, c) =
            splitViewLoop rest
              (⟨e.next + 1 + 1, e.sessionViews ++ [(s, e.next)], e.closed⟩,
                SessionMap.insert map e.next (some s), c.addView e.next (e.next + 1)) := by
          simp [splitViewLoop, SessionMap.index_of_value hval, loadViewSettings,
            createTerminalDisplay, createController, Env.alloc, Env.addView]
        rw [step] at hrun
        have hrest := ih _ _ _ r
          (fun w hw => Nat.lt_succ_of_lt (Nat.lt_succ_of_lt (hlt w (List.mem_cons_of_mem _ hw))))
          hrun
        intro u hu
        rcases List.mem_cons.mp hu with rfl | hu
        · exact ⟨s, hval⟩
        · obtain ⟨t, ht⟩ := hrest u hu
          rw [SessionMap.value_insert] at ht
          have hne : u ≠ e.next := Nat.ne_of_lt (hlt u (List.mem_cons_of_mem _ hu))
          simp only [hne, if_false] at ht
          exact ⟨t, ht⟩

theorem splitView_true_inv {w w' : World} (hinv : Inv w) (h : splitView true w = some w') :
    Inv w' := by
  obtain ⟨e, m⟩ := w
  obtain ⟨i1, i2, i3⟩ := hinv
  simp only at i1 i2 i3
  unfold splitView at h
  cases hb : splitViewBranch true (e, m) with
  | none => simp [hb] at h
  | some w1 =>
    rw [hb] at h
    have hw := splitViewFocus_some h
    subst hw
    cases hac : m.viewSplitter.activeContainer with
    | none => simp [splitViewBranch, hac] at hb
    | some ac =>
      have hacmem : ac ∈ m.viewSplitter.containers := List.getElem?_mem hac
      have hsub : ∀ v ∈ ac.views, v ∈ m.liveViews :=
        fun v hv => mem_allViews.mpr ⟨ac, hacmem, hv⟩
      cases hl : splitViewLoop ac.views (e, m.sessionMap, createContainer) with
      | none => simp [splitViewBranch, hac, hl] at hb
      | some r =>
        have hmapped := splitViewLoop_some_mapped ac.views e m.sessionMap createContainer r
          (fun v hv => i3 v (hsub v hv)) hl
        obtain ⟨e', map', nc, hloop, hnext, hncviews, hnew, hold⟩ :=
          splitViewLoop_spec ac.views e m.sessionMap createContainer hmapped
            (fun v hv => i3 v (hsub v hv))
        rw [splitViewBranch_true hac hloop, Option.some.injEq] at hb
        subst hb
        have hnc : nc.views = (List.range ac.views.length).map (fun j => e.next + 2 * j) := by
          simpa [createContainer, ViewContainer.empty, ViewContainer.views] using hncviews
        have hmemnc : ∀ v ∈ nc.views, ∃ j : Nat, j < ac.views.length ∧ v = e.next + 2 * j := by
          intro v hv
          rw [hnc] at hv
          simp only [List.mem_map, List.mem_range] at hv
          obtain ⟨j, hj, rfl⟩ := hv
          exact ⟨j, hj, rfl⟩
        have hcont : ∀ c' ∈ (m.viewSplitter.addContainer nc).containers,
            c' ∈ m.viewSplitter.containers ∨ c' = nc := by
          intro c' hc'
          simpa [ViewSplitter.addContainer] using hc'
        have holdlive : ∀ v ∈ m.liveViews,
            SessionMap.value map' v = SessionMap.value m.sessionMap v :=
          fun v hv => hold v (i3 v hv)
        refine ⟨?_, ?_, ?_⟩
        · intro c' hc' v hv u hu t hvt hut
          simp only at hc' hvt hut
          rcases hcont c' hc' with hc | rfl
          · have hvl := mem_allViews.mpr ⟨c', hc, hv⟩
            have hul := mem_allViews.mpr ⟨c', hc, hu⟩
            rw [holdlive v hvl] at hvt
            rw [holdlive u hul] at hut
            exact i1 c' hc v hv u hu t hvt hut
          · obtain ⟨j, hj, rfl⟩ := hmemnc v hv
            obtain ⟨k, hk, rfl⟩ := hmemnc u hu
            have hj' : ac.views[j]? = some (ac.views[j]) := List.getElem?_eq_getElem hj
            have hk' : ac.views[k]? = some (ac.views[k]) := List.getElem?_eq_getElem hk
            rw [hnew j _ hj'] at hvt
            rw [hnew k _ hk'] at hut
            have heq : ac.views[j] = ac.views[k] :=
              i1 ac hacmem _ (List.getElem?_mem hj') _ (List.getElem?_mem hk') t hvt hut
            have hjk : j = k := ((i2 ac hacmem).getElem_inj_iff).mp heq
            rw [hjk]
        · intro c' hc'
          simp only at hc'
          rcases hcont c' hc' with hc | rfl
          · exact i2 c' hc
          · rw [hnc]
            apply List.Nodup.map _ (List.nodup_range _)
            intro a b hab
            have hab2 : (e.next + 2 * a : Nat) = e.next + 2 * b := hab
            omega
        · intro v hv
          obtain ⟨c', hc', hvc⟩ := mem_allViews.mp hv
          simp only at hc'
          show v < e'.next
          rw [hnext]
          rcases hcont c' hc' with hc | rfl
          · have hlt : v < e.next := i3 v (mem_allViews.mpr ⟨c', hc, hvc⟩)
            exact Nat.lt_of_lt_of_le hlt (Nat.le_add_right _ _)
          · obtain ⟨j, hj, rfl⟩ := hmemnc v hvc
            show (e.next + 2 * j : Nat) < e.next + 2 * ac.views.length
            omega

theorem mem_modifyAt_idx {α : Type} {f : α → α} {i : Nat} {l : List α} {x : α}
    (h : x ∈ modifyAt f i l) : x ∈ l ∨ ∃ y, l[i]? = some y ∧ x = f y := by
  obtain ⟨j, hj⟩ := List.mem_iff_getElem?.mp h
  rw [getElem?_modifyAt] at hj
  by_cases hji : j = i
  · subst hji
    simp only [if_true] at hj
    cases hl : l[j]? with
    | none => simp [hl] at hj
    | some y =>
      rw [hl, Option.map_some', Option.some.injEq] at hj
      exact Or.inr ⟨y, rfl, hj.symm⟩
  · simp only [hji, if_false] at hj
    exact Or.inl (List.getElem?_mem hj)

theorem merge_inv {w : World} {other : ViewManager} {r : ViewManager × ViewManager}
    (hinv : Inv w) (hadm : mergeAdmissible w other) (h : merge (w.2, other) = some r) :
    Inv (w.1, r.1) := by
  obtain ⟨e, a⟩ := w
  simp only at h ⊢
  unfold merge at h
  cases hoc : other.viewSplitter.activeContainer with
  | none => simp [hoc] at h
  | some oc =>
    simp only [hoc] at h
    obtain ⟨hnd, hfresh, hinj, hcross⟩ := hadm oc hoc
    cases hac : a.viewSplitter.activeContainer with
    | none =>
      cases hv : oc.views with
      | nil =>
        rw [hv] at h
        simp only [mergeLoop, Option.some.injEq] at h
        subst h
        exact hinv
      | cons v rest =>
        rw [hv] at h
        simp [mergeLoop, takeView, hac, hoc] at h
    | some ac =>
      have hcross := hcross ac hac
      obtain ⟨i1, i2, i3⟩ := hinv
      simp only at i1 i2 i3
      obtain ⟨a', b', hrun, hav, -, ham, -⟩ := mergeLoop_spec oc.items a other ac oc hac hoc
        hnd (viewProperties_of_views_nodup oc hnd)
      have hviews : oc.items.map Prod.fst = oc.views := rfl
      rw [hviews] at hrun ham
      rw [hrun, Option.some.injEq] at h
      subst h
      simp only
      have hacmem : ac ∈ a.viewSplitter.containers := List.getElem?_mem hac
      have hcont : ∀ c' ∈ a'.viewSplitter.containers,
          c' ∈ a.viewSplitter.containers ∨ c'.views = ac.views ++ oc.views := by
        intro c' hc'
        rw [hav] at hc'
        rcases mem_modifyAt_idx hc' with hc | ⟨y, hy, rfl⟩
        · exact Or.inl hc
        · have hyac : y = ac := by
            have h1 : a.viewSplitter.containers[a.viewSplitter.activeIndex]? = some ac := hac
            rw [h1, Option.some.injEq] at hy
            exact hy.symm
          subst hyac
          right
          show ((addViews y oc.items).items.map Prod.fst) = _
          rw [addViews_items, List.map_append]
          rfl
      have hnotin : ∀ v ∈ a.liveViews, v ∉ oc.views :=
        fun v hv hvo => (hfresh v hvo).2 hv
      have hold : ∀ v ∈ a.liveViews,
          SessionMap.value a'.sessionMap v = SessionMap.value a.sessionMap v := by
        intro v hv
        rw [ham v]
        simp [hnotin v hv]
      have hnew : ∀ v ∈ oc.views,
          SessionMap.value a'.sessionMap v = some (boundSession other.sessionMap v) := by
        intro v hv
        rw [ham v]
        simp [hv, boundSession]
      have hbound : ∀ (v : View) (t : Session), SessionMap.value a.sessionMap v = some (some t) →
          boundSession a.sessionMap v = some t := by
        intro v t hvt
        simp [boundSession, hvt]
      refine ⟨?_, ?_, ?_⟩
      · intro c' hc' v hv u hu t hvt hut
        rcases hcont c' hc' with hc | hc
        · have hvl := mem_allViews.mpr ⟨c', hc, hv⟩
          have hul := mem_allViews.mpr ⟨c', hc, hu⟩
          rw [hold v hvl] at hvt
          rw [hold u hul] at hut
          exact i1 c' hc v hv u hu t hvt hut
        · rw [hc] at hv hu
          simp only [List.mem_append] at hv hu
          rcases hv with hv | hv <;> rcases hu with hu | hu
          · have hvl := mem_allViews.mpr ⟨ac, hacmem, hv⟩
            have hul := mem_allViews.mpr ⟨ac, hacmem, hu⟩
            rw [hold v hvl] at hvt
            rw [hold u hul] at hut
            exact i1 ac hacmem v hv u hu t hvt hut
          · have hvl := mem_allViews.mpr ⟨ac, hacmem, hv⟩
            rw [hold v hvl] at hvt
            rw [hnew u hu, Option.some.injEq] at hut
            have := hcross u hu v hv (by rw [hut]; rfl)
            rw [hut, hbound v t hvt] at this
            exact absurd rfl this
          · have hul := mem_allViews.mpr ⟨ac, hacmem, hu⟩
            rw [hold u hul] at hut
            rw [hnew v hv, Option.some.injEq] at hvt
            have := hcross v hv u hu (by rw [hvt]; rfl)
            rw [hvt, hbound u t hut] at this
            exact absurd rfl this
          · rw [hnew v hv, Option.some.injEq] at hvt
            rw [hnew u hu, Option.some.injEq] at hut
            exact hinj v hv u hu (by rw [hvt]; rfl) (by rw [hvt, hut])
      · intro c' hc'
        rcases hcont c' hc' with hc | hc
        · exact i2 c' hc
        · rw [hc]
          apply List.Nodup.append (i2 ac hacmem) hnd
          intro v hv hvo
          exact hnotin v (mem_allViews.mpr ⟨ac, hacmem, hv⟩) hvo
      · intro v hv
        obtain ⟨c', hc', hvc⟩ := mem_allViews.mp hv
        rcases hcont c' hc' with hc | hc
        · exact i3 v (mem_allViews.mpr ⟨c', hc, hvc⟩)
        · rw [hc] at hvc
          rcases List.mem_append.mp hvc with hvc | hvc
          · exact i3 v (mem_allViews.mpr ⟨ac, hacmem, hvc⟩)
          · exact (hfresh v hvc).1

theorem Event.apply_inv {ev : Event} {w w' : World} (hinv : Inv w)
    (hadm : ev.admissible w) (h : ev.apply w = some w') : Inv w' := by
  cases ev with
  | createView s =>
    simp only [Event.apply, Option.some.injEq] at h
    subst h
    exact createView_inv s w hinv hadm
  | splitView b =>
    cases b with
    | true => exact splitView_true_inv hinv h
    | false => exact (splitView_false_shrinks h).preserves hinv
  | splitViewToggled b =>
    have hinv2 : Inv (w.1, { w.2 with splitViewChecked := b }) := hinv
    cases b with
    | true => exact splitView_true_inv hinv2 h
    | false => exact (splitView_false_shrinks h).preserves hinv2
  | detachActiveView => exact (detachActiveView_shrinks h).preserves hinv
  | sessionFinished s =>
    simp only [Event.apply, Option.some.injEq] at h
    subst h
    exact (sessionFinished_shrinks s w).preserves hinv
  | viewCloseRequest v =>
    simp only [Event.apply, Option.some.injEq] at h
    subst h
    exact (viewCloseRequest_shrinks v w).preserves hinv
  | merge other =>
    simp only [Event.apply] at h
    cases hm : Konsole.merge (w.2, other) with
    | none => simp [hm] at h
    | some r =>
      rw [hm, Option.map_some', Option.some.injEq] at h
      subst h
      exact merge_inv hinv hadm hm

theorem Reachable.invariant {w : World} (h : Reachable w) : Inv w := by
  induction h with
  | init e =>
    refine ⟨?_, ?_, ?_⟩
    · intro c hc; cases hc
    · intro c hc; cases hc
    · intro v hv; cases hv
  | step ev _ hadm happ ih => exact Event.apply_inv ih hadm happ

/-- C8, amended: in every manager state reachable from the freshly constructed
manager by `createView(s)` calls for sessions that no view held by a container is
mapped to at the time of the call, by `splitView`, `detachActiveView`,
`sessionFinished` and `viewCloseRequest` calls, and by `merge` calls with managers
that satisfy `mergeAdmissible`, no container holds two different views whose map
entries are the same session. -/
theorem one_view_per_session (w : World) (h : Reachable w) : OneViewPerSession w.2 :=
  (Reachable.invariant h).1

/-- Witness for C8: two sessions are shown, the view is split by the toggle action,
another manager is merged, a session finishes, a view is closed and one is
detached. -/
theorem one_view_per_session_witness :
    Reachable afterEvents ∧ OneViewPerSession afterEvents.2 := by
  have h0 : Reachable (⟨20, [], []⟩, ViewManager.new) := Reachable.init _
  have h1 := Reachable.step (.createView 7) h0 (by intro v hv; cases hv) rfl
  have h2 := Reachable.step (.createView 8) h1 (by unfold Event.admissible; decide) rfl
  have h3 := Reachable.step (.splitViewToggled true) h2 trivial rfl
  have h4 := Reachable.step (.merge otherManager) h3
    (by unfold Event.admissible mergeAdmissible; decide) rfl
  have h5 := Reachable.step (.sessionFinished 8) h4 trivial rfl
  have h6 := Reachable.step (.viewCloseRequest 10) h5 trivial rfl
  have h7 : Reachable afterEvents := Reachable.step .detachActiveView h6 trivial (by decide)
  exact ⟨h7, one_view_per_session afterEvents h7⟩

end Konsole
